import Mathlib

/-!
Shallow embedding of the MCE-IRL numerical core of the repository:
construction of the dense transition tensor and reward matrix from a
discrete environment (utils/utils.py) and the expert-visitation,
occupancy-measure and training loop (irl/algorithms/mce_irl.py).

Modelling conventions: probabilities and rewards are rationals; numpy
arrays are total functions updated pointwise; the python dict
state -> action -> list of (probability, next_state, reward, done)
is an association list processed in its stored order; a python
AssertionError or ValueError is an Except.error; a while loop is a
fuel-indexed recursion returning none when the fuel runs out.
-/

namespace MceIrl

/-- One entry of the transition structure of a discrete environment:
a tuple (probability, next_state, reward, done). -/
structure Outcome where
  probability : ℚ
  next_state : ℕ
  reward : ℚ
  done : Bool
  deriving DecidableEq

/-- The transition structure P of a discrete environment: per state, per
action, the ordered list of outcomes, in stored (insertion) order. -/
abbrev PStruct := List (ℕ × List (ℕ × List Outcome))

/-- A dense rank-3 numpy array, indexed state, action, next state. -/
abbrev Tensor := ℕ → ℕ → ℕ → ℚ

/-- The flattened traversal order of a transition structure: the list of
(state, action, outcome) triples exactly as the three nested loops of
get_transition_matrix and get_reward_matrix visit them. -/
def flattenP (P : PStruct) : List (ℕ × ℕ × Outcome) :=
  P.flatMap (fun sal => sal.2.flatMap (fun ao => ao.2.map (fun o => (sal.1, ao.1, o))))

/-- table[state, action, next] += p. -/
def addProb (s a x : ℕ) (p : ℚ) (t : Tensor) : Tensor :=
  fun s' a' x' => if s' = s ∧ a' = a ∧ x' = x then t s' a' x' + p else t s' a' x'

/-- table[u, :, :] = 0 followed by table[u, :, -1] = 1, with nS the size
of the first and last dimension (so the last index is nS - 1). -/
def rewireRow (nS u : ℕ) (t : Tensor) : Tensor :=
  fun s' a' x' => if s' = u then (if x' = nS - 1 then 1 else 0) else t s' a' x'

/-- The body of the innermost loop of get_transition_matrix: accumulate
the probability, then, if the outcome is done, assert that the absorbing
state is enabled (an AssertionError otherwise) and rewire the row of the
next state onto the absorbing state. -/
def stepOutcome (wa : Bool) (nS s a : ℕ) (t : Tensor) (o : Outcome) :
    Except Unit Tensor :=
  let t1 := addProb s a o.next_state o.probability t
  if o.done then
    if wa then Except.ok (rewireRow nS o.next_state t1) else Except.error ()
  else Except.ok t1

/-- Iteration of get_transition_matrix over the outcomes of one action. -/
def stepAction (wa : Bool) (nS s : ℕ) (t : Tensor) (ao : ℕ × List Outcome) :
    Except Unit Tensor :=
  ao.2.foldlM (stepOutcome wa nS s ao.1) t

/-- Iteration of get_transition_matrix over the actions of one state. -/
def stepState (wa : Bool) (nS : ℕ) (t : Tensor)
    (sal : ℕ × List (ℕ × List Outcome)) : Except Unit Tensor :=
  sal.2.foldlM (stepAction wa nS sal.1) t

/-- get_transition_matrix of utils/utils.py: env is given by its
transition structure P, its state count n and its action count nA.
With the absorbing state enabled the table has n + 1 states and the
final assignment table[-1, :, -1] = 1.0 is applied. -/
def get_transition_matrix (P : PStruct) (n nA : ℕ) (wa : Bool) :
    Except Unit Tensor :=
  let nS := if wa then n + 1 else n
  (P.foldlM (stepState wa nS) (fun _ _ _ => 0)).map (fun t =>
    if wa then
      (fun s' a' x' => if s' = nS - 1 ∧ x' = nS - 1 then (1 : ℚ) else t s' a' x')
    else t)

/-- Pure body of the innermost loop when the absorbing state is enabled
(no assertion can fire). -/
def stepOutcomeT (nS s a : ℕ) (t : Tensor) (o : Outcome) : Tensor :=
  let t1 := addProb s a o.next_state o.probability t
  if o.done then rewireRow nS o.next_state t1 else t1

/-- Run the pure loop body over a flattened traversal. -/
def runFlat (nS : ℕ) (L : List (ℕ × ℕ × Outcome)) (t : Tensor) : Tensor :=
  L.foldl (fun t sao => stepOutcomeT nS sao.1 sao.2.1 t sao.2.2) t

theorem stepOutcome_true (nS s a : ℕ) (t : Tensor) (o : Outcome) :
    stepOutcome true nS s a t o = Except.ok (stepOutcomeT nS s a t o) := by
  unfold stepOutcome stepOutcomeT
  cases o.done <;> simp

theorem foldlM_ok {α : Type} (g : Tensor → α → Tensor)
    (f : Tensor → α → Except Unit Tensor)
    (hfg : ∀ t x, f t x = Except.ok (g t x)) :
    ∀ (l : List α) (t : Tensor), l.foldlM f t = Except.ok (l.foldl g t) := by
  intro l
  induction l with
  | nil => intro t; rfl
  | cons hd tl ih =>
    intro t
    rw [List.foldlM_cons, hfg, List.foldl_cons]
    exact ih (g t hd)

theorem runFlat_append (nS : ℕ) (L1 L2 : List (ℕ × ℕ × Outcome)) (t : Tensor) :
    runFlat nS (L1 ++ L2) t = runFlat nS L2 (runFlat nS L1 t) := by
  unfold runFlat
  rw [List.foldl_append]

/-- With the absorbing state enabled, the nested monadic traversal never
fails and equals the pure fold over the flattened traversal. -/
theorem foldlM_true_eq_runFlat (nS : ℕ) (P : PStruct) (t : Tensor) :
    P.foldlM (stepState true nS) t = Except.ok (runFlat nS (flattenP P) t) := by
  induction P generalizing t with
  | nil => rfl
  | cons hd tl ih =>
    rw [List.foldlM_cons]
    have hstate : stepState true nS t hd =
        Except.ok (runFlat nS (hd.2.flatMap (fun ao => ao.2.map (fun o => (hd.1, ao.1, o)))) t) := by
      unfold stepState
      induction hd.2 generalizing t with
      | nil => rfl
      | cons ao tl2 ih2 =>
        rw [List.foldlM_cons]
        have haction : stepAction true nS hd.1 t ao =
            Except.ok (runFlat nS (ao.2.map (fun o => (hd.1, ao.1, o))) t) := by
          unfold stepAction
          rw [foldlM_ok (fun t o => stepOutcomeT nS hd.1 ao.1 t o)
            (stepOutcome true nS hd.1 ao.1) (stepOutcome_true nS hd.1 ao.1)]
          unfold runFlat
          rw [List.foldl_map]
        rw [haction]
        show tl2.foldlM (stepAction true nS hd.1) _ = _
        rw [ih2, List.flatMap_cons, runFlat_append]
    rw [hstate]
    show tl.foldlM (stepState true nS) _ = _
    rw [ih]
    simp only [flattenP, List.flatMap_cons, runFlat_append]

/-- Rows whose index is never a state key and never a done target are
untouched by the traversal. -/
theorem runFlat_row_untouched (nS r : ℕ) (L : List (ℕ × ℕ × Outcome)) :
    ∀ t : Tensor, (∀ sao ∈ L, r ≠ sao.1 ∧ r ≠ sao.2.2.next_state) →
    ∀ a x, runFlat nS L t r a x = t r a x := by
  induction L with
  | nil => intro t _ a x; rfl
  | cons hd tl ih =>
    intro t h a x
    have hh := h hd (List.mem_cons_self _ _)
    have hstep : runFlat nS (hd :: tl) t =
        runFlat nS tl (stepOutcomeT nS hd.1 hd.2.1 t hd.2.2) := rfl
    rw [hstep, ih _ (fun sao hs => h sao (List.mem_cons_of_mem _ hs)) a x]
    cases hdone : hd.2.2.done <;>
      simp [stepOutcomeT, hdone, addProb, rewireRow, hh.1, hh.2]

/-- If every outcome listed under state u is a done self-loop onto u, and
either some done outcome anywhere targets u or the row of u is already
the absorbing-state unit row, then after the traversal the row of u is
the absorbing-state unit row. -/
theorem runFlat_terminal_row (nS u : ℕ) (L : List (ℕ × ℕ × Outcome)) :
    ∀ t : Tensor,
    (∀ sao ∈ L, sao.1 = u → sao.2.2.done = true ∧ sao.2.2.next_state = u) →
    ((∃ sao ∈ L, sao.2.2.done = true ∧ sao.2.2.next_state = u) ∨
      ∀ a x, t u a x = if x = nS - 1 then 1 else 0) →
    ∀ a x, runFlat nS L t u a x = if x = nS - 1 then 1 else 0 := by
  induction L with
  | nil =>
    intro t _ hstart a x
    rcases hstart with ⟨sao, hmem, _⟩ | hrow
    · exact absurd hmem (List.not_mem_nil _)
    · exact hrow a x
  | cons hd tl ih =>
    intro t hself hstart
    have hstep : runFlat nS (hd :: tl) t =
        runFlat nS tl (stepOutcomeT nS hd.1 hd.2.1 t hd.2.2) := rfl
    rw [hstep]
    refine ih _ (fun sao hs => hself sao (List.mem_cons_of_mem _ hs)) ?_
    by_cases hcase : hd.2.2.done = true ∧ hd.2.2.next_state = u
    · right
      intro a x
      simp [stepOutcomeT, hcase.1, rewireRow, hcase.2]
    · rcases hstart with ⟨sao, hmem, hsao⟩ | hrow
      · rcases List.mem_cons.mp hmem with rfl | hmem'
        · exact absurd hsao hcase
        · exact Or.inl ⟨sao, hmem', hsao⟩
      · right
        intro a x
        have hs1 : hd.1 ≠ u := fun he => hcase (hself hd (List.mem_cons_self _ _) he)
        cases hdone : hd.2.2.done with
        | true =>
          have hnext : hd.2.2.next_state ≠ u := fun he => hcase ⟨hdone, he⟩
          simp [stepOutcomeT, hdone, rewireRow, addProb, Ne.symm hnext, Ne.symm hs1,
            hrow a x]
        | false =>
          simp [stepOutcomeT, hdone, addProb, Ne.symm hs1, hrow a x]

/-- If no done outcome targets u, the row of u only accumulates the
probabilities of the outcomes listed under u. -/
theorem runFlat_plain_row (nS u : ℕ) (L : List (ℕ × ℕ × Outcome)) :
    ∀ t : Tensor,
    (∀ sao ∈ L, ¬(sao.2.2.done = true ∧ sao.2.2.next_state = u)) →
    ∀ a x, runFlat nS L t u a x =
      t u a x + (L.map (fun sao =>
        if u = sao.1 ∧ a = sao.2.1 ∧ x = sao.2.2.next_state
        then sao.2.2.probability else 0)).sum := by
  induction L with
  | nil => intro t _ a x; simp [runFlat]
  | cons hd tl ih =>
    intro t hno a x
    have hstep : runFlat nS (hd :: tl) t =
        runFlat nS tl (stepOutcomeT nS hd.1 hd.2.1 t hd.2.2) := rfl
    rw [hstep, ih _ (fun sao hs => hno sao (List.mem_cons_of_mem _ hs)) a x,
      List.map_cons, List.sum_cons]
    have hhd : stepOutcomeT nS hd.1 hd.2.1 t hd.2.2 u a x =
        t u a x + (if u = hd.1 ∧ a = hd.2.1 ∧ x = hd.2.2.next_state
          then hd.2.2.probability else 0) := by
      cases hdone : hd.2.2.done with
      | true =>
        have hnext : hd.2.2.next_state ≠ u :=
          fun he => hno hd (List.mem_cons_self _ _) ⟨hdone, he⟩
        simp only [stepOutcomeT, hdone, if_true, rewireRow, addProb,
          if_neg (Ne.symm hnext)]
        by_cases hm : u = hd.1 ∧ a = hd.2.1 ∧ x = hd.2.2.next_state
        · rw [if_pos hm, if_pos hm]
        · rw [if_neg hm, if_neg hm, add_zero]
      | false =>
        simp only [stepOutcomeT, hdone, Bool.false_eq_true, if_false, addProb]
        by_cases hm : u = hd.1 ∧ a = hd.2.1 ∧ x = hd.2.2.next_state
        · rw [if_pos hm, if_pos hm]
        · rw [if_neg hm, if_neg hm, add_zero]
    rw [hhd]
    ring

/-- Total probability mass listed in the traversal for state s and
action a. For a python dict this is the probability sum of the unique
outcome list stored at (s, a). -/
def rowProbSum (L : List (ℕ × ℕ × Outcome)) (s a : ℕ) : ℚ :=
  (L.map (fun sao => if s = sao.1 ∧ a = sao.2.1
    then sao.2.2.probability else 0)).sum

theorem sum_range_list_sum {β : Type} (s : Finset ℕ) (L : List β)
    (f : ℕ → β → ℚ) :
    ∑ x ∈ s, (L.map (f x)).sum = (L.map (fun e => ∑ x ∈ s, f x e)).sum := by
  induction L with
  | nil => simp
  | cons hd tl ih => simp [List.map_cons, List.sum_cons, Finset.sum_add_distrib, ih]

theorem sum_range_ite_triple (N s1 a1 x1 : ℕ) (p : ℚ) (u a : ℕ) (hx : x1 < N) :
    ∑ x ∈ Finset.range N, (if u = s1 ∧ a = a1 ∧ x = x1 then p else 0) =
    if u = s1 ∧ a = a1 then p else 0 := by
  by_cases h : u = s1 ∧ a = a1
  · have hcond : ∀ x : ℕ, (u = s1 ∧ a = a1 ∧ x = x1) ↔ (x = x1) := by
      intro x
      constructor
      · rintro ⟨_, _, hx'⟩; exact hx'
      · intro hx'; exact ⟨h.1, h.2, hx'⟩
    simp only [hcond]
    rw [Finset.sum_ite_eq' (Finset.range N) x1 (fun _ => p)]
    simp [Finset.mem_range.mpr hx, h]
  · have hzero : ∀ x : ℕ, (if u = s1 ∧ a = a1 ∧ x = x1 then p else 0) = 0 := by
      intro x
      rw [if_neg]
      tauto
    simp [hzero, h]

/-- Closed form of get_transition_matrix with the absorbing state
enabled: it never fails, and returns the flattened traversal result with
the final absorbing self-loop assignment applied. -/
theorem get_transition_matrix_true_eq (P : PStruct) (n nA : ℕ) :
    get_transition_matrix P n nA true = Except.ok (fun s' a' x' =>
      if s' = n ∧ x' = n then (1 : ℚ)
      else runFlat (n + 1) (flattenP P) (fun _ _ _ => 0) s' a' x') := by
  unfold get_transition_matrix
  simp only [if_true, Nat.add_sub_cancel, foldlM_true_eq_runFlat, Except.map]

/-- Claim C1, amended: if the transition structure lists, for every state
s < n and action a < nA, outcomes whose probabilities sum to 1, all its
state and next-state indices are below n, and every state that is the
target of a done outcome has only done self-loop outcomes of its own,
then the tensor built by get_transition_matrix with the absorbing state
enabled has every row (s, a) summing exactly to 1, and the absorbing
row places all its mass on itself under every action. -/
theorem transition_tensor_valid (P : PStruct) (n nA : ℕ) (T : Tensor)
    (hrange : ∀ sao ∈ flattenP P, sao.1 < n ∧ sao.2.2.next_state < n)
    (hstoch : ∀ s < n, ∀ a < nA, rowProbSum (flattenP P) s a = 1)
    (hterm : ∀ u, (∃ sao ∈ flattenP P, sao.2.2.done = true ∧ sao.2.2.next_state = u) →
      ∀ sao ∈ flattenP P, sao.1 = u → sao.2.2.done = true ∧ sao.2.2.next_state = u)
    (hT : get_transition_matrix P n nA true = Except.ok T) :
    (∀ s < n + 1, ∀ a < nA, ∑ x ∈ Finset.range (n + 1), T s a x = 1) ∧
    (∀ a x, T n a x = if x = n then 1 else 0) := by
  rw [get_transition_matrix_true_eq] at hT
  have hTapp : ∀ s a x, T s a x =
      if s = n ∧ x = n then (1 : ℚ)
      else runFlat (n + 1) (flattenP P) (fun _ _ _ => 0) s a x := by
    intro s a x
    have hTfun := (Except.ok.injEq _ _).mp hT.symm
    rw [hTfun]
  have habsrow : ∀ a x, T n a x = if x = n then 1 else 0 := by
    intro a x
    rw [hTapp]
    by_cases hx : x = n
    · simp [hx]
    · rw [if_neg (fun hc => hx hc.2), if_neg hx]
      rw [runFlat_row_untouched (n + 1) n (flattenP P) (fun _ _ _ => 0)
        (fun sao hmem => ⟨Nat.ne_of_gt (hrange sao hmem).1,
          Nat.ne_of_gt (hrange sao hmem).2⟩)]
  refine ⟨?_, habsrow⟩
  intro s hs a ha
  rcases Nat.lt_succ_iff_lt_or_eq.mp hs with hsn | hseq
  · -- a listed, non-absorbing row
    have hsne : s ≠ n := Nat.ne_of_lt hsn
    have hpass : ∀ x : ℕ, T s a x =
        runFlat (n + 1) (flattenP P) (fun _ _ _ => 0) s a x := by
      intro x
      rw [hTapp, if_neg (fun hc => hsne hc.1)]
    simp only [hpass]
    by_cases hTermS : ∃ sao ∈ flattenP P,
        sao.2.2.done = true ∧ sao.2.2.next_state = s
    · have hrow := runFlat_terminal_row (n + 1) s (flattenP P)
        (fun _ _ _ => 0) (hterm s hTermS) (Or.inl hTermS)
      simp only [Nat.add_sub_cancel] at hrow
      simp only [hrow]
      rw [Finset.sum_ite_eq' (Finset.range (n + 1)) n (fun _ => (1 : ℚ))]
      simp
    · push_neg at hTermS
      have hno : ∀ sao ∈ flattenP P,
          ¬(sao.2.2.done = true ∧ sao.2.2.next_state = s) := by
        intro sao hmem hcon
        exact (hTermS sao hmem hcon.1) hcon.2
      have hrow := runFlat_plain_row (n + 1) s (flattenP P)
        (fun _ _ _ => 0) hno a
      simp only [hrow]
      simp only [zero_add]
      rw [sum_range_list_sum]
      have hsum : ∀ sao ∈ flattenP P,
          (∑ x ∈ Finset.range (n + 1),
            (if s = sao.1 ∧ a = sao.2.1 ∧ x = sao.2.2.next_state
              then sao.2.2.probability else 0)) =
          (if s = sao.1 ∧ a = sao.2.1 then sao.2.2.probability else 0) := by
        intro sao hmem
        exact sum_range_ite_triple (n + 1) sao.1 sao.2.1 sao.2.2.next_state
          sao.2.2.probability s a (Nat.lt_succ_of_lt (hrange sao hmem).2)
      rw [List.map_congr_left hsum]
      exact hstoch s hsn a ha
  · -- the absorbing row sums to 1 as well
    subst hseq
    simp only [habsrow]
    rw [Finset.sum_ite_eq' (Finset.range (s + 1)) s (fun _ => (1 : ℚ))]
    simp

/-- The nested monadic traversal equals the monadic fold over the
flattened traversal, for either setting of the absorbing flag. -/
theorem foldlM_eq_flat (wa : Bool) (nS : ℕ) (P : PStruct) : ∀ t : Tensor,
    P.foldlM (stepState wa nS) t =
    (flattenP P).foldlM
      (fun t sao => stepOutcome wa nS sao.1 sao.2.1 t sao.2.2) t := by
  induction P with
  | nil => intro t; rfl
  | cons hd tl ih =>
    intro t
    have hflat : flattenP (hd :: tl) =
        hd.2.flatMap (fun ao => ao.2.map (fun o => (hd.1, ao.1, o))) ++ flattenP tl := by
      simp [flattenP, List.flatMap_cons]
    rw [List.foldlM_cons, hflat, List.foldlM_append]
    have hstate : ∀ t : Tensor, stepState wa nS t hd =
        (hd.2.flatMap (fun ao => ao.2.map (fun o => (hd.1, ao.1, o)))).foldlM
          (fun t sao => stepOutcome wa nS sao.1 sao.2.1 t sao.2.2) t := by
      intro t
      unfold stepState
      induction hd.2 generalizing t with
      | nil => rfl
      | cons ao tl2 ih2 =>
        rw [List.foldlM_cons, List.flatMap_cons, List.foldlM_append]
        have haction : stepAction wa nS hd.1 t ao =
            (ao.2.map (fun o => (hd.1, ao.1, o))).foldlM
              (fun t sao => stepOutcome wa nS sao.1 sao.2.1 t sao.2.2) t := by
          unfold stepAction
          induction ao.2 generalizing t with
          | nil => rfl
          | cons o tl3 ih3 =>
            rw [List.foldlM_cons, List.map_cons, List.foldlM_cons]
            cases hres : stepOutcome wa nS hd.1 ao.1 t o with
            | error e => rfl
            | ok v => exact ih3 v
        rw [haction]
        cases hres : (ao.2.map (fun o => (hd.1, ao.1, o))).foldlM
            (fun t sao => stepOutcome wa nS sao.1 sao.2.1 t sao.2.2) t with
        | error e => rfl
        | ok v => exact ih2 v
    rw [hstate]
    cases hres : (hd.2.flatMap (fun ao => ao.2.map (fun o => (hd.1, ao.1, o)))).foldlM
        (fun t sao => stepOutcome wa nS sao.1 sao.2.1 t sao.2.2) t with
    | error e => rfl
    | ok v => exact ih v

/-- With the absorbing state disabled, the flattened traversal succeeds
exactly when no outcome is marked done. -/
theorem flat_false_ok_iff (nS : ℕ) (L : List (ℕ × ℕ × Outcome)) :
    ∀ t : Tensor,
    (∃ r, L.foldlM (fun t sao => stepOutcome false nS sao.1 sao.2.1 t sao.2.2) t
      = Except.ok r) ↔
    ∀ sao ∈ L, sao.2.2.done = false := by
  induction L with
  | nil =>
    intro t
    constructor
    · intro _ sao hmem
      exact absurd hmem (List.not_mem_nil _)
    · intro _
      exact ⟨t, rfl⟩
  | cons hd tl ih =>
    intro t
    rw [List.foldlM_cons]
    cases hdone : hd.2.2.done with
    | true =>
      have hstep : stepOutcome false nS hd.1 hd.2.1 t hd.2.2 = Except.error () := by
        simp [stepOutcome, hdone]
      rw [hstep]
      constructor
      · rintro ⟨r, hr⟩
        exact Except.noConfusion hr
      · intro hall
        have := hall hd (List.mem_cons_self _ _)
        rw [hdone] at this
        exact Bool.noConfusion this
    | false =>
      have hstep : stepOutcome false nS hd.1 hd.2.1 t hd.2.2 =
          Except.ok (addProb hd.1 hd.2.1 hd.2.2.next_state hd.2.2.probability t) := by
        simp [stepOutcome, hdone]
      rw [hstep]
      have hbind : (Except.ok (addProb hd.1 hd.2.1 hd.2.2.next_state hd.2.2.probability t)
          >>= fun t' => tl.foldlM (fun t sao => stepOutcome false nS sao.1 sao.2.1 t sao.2.2) t') =
          tl.foldlM (fun t sao => stepOutcome false nS sao.1 sao.2.1 t sao.2.2)
            (addProb hd.1 hd.2.1 hd.2.2.next_state hd.2.2.probability t) := rfl
      rw [hbind, ih]
      constructor
      · intro hall sao hmem
        rcases List.mem_cons.mp hmem with rfl | hmem'
        · exact hdone
        · exact hall sao hmem'
      · intro hall sao hmem
        exact hall sao (List.mem_cons_of_mem _ hmem)

/-- Claim C10: with the absorbing state disabled, get_transition_matrix fails
with an assertion error as soon as an outcome is marked done, and
returns a table normally exactly when the transition structure contains
no done outcome. -/
theorem get_transition_matrix_no_absorbing_ok_iff (P : PStruct) (n nA : ℕ) :
    (∃ T, get_transition_matrix P n nA false = Except.ok T) ↔
    ∀ sao ∈ flattenP P, sao.2.2.done = false := by
  unfold get_transition_matrix
  simp only [Bool.false_eq_true, if_false]
  rw [foldlM_eq_flat]
  constructor
  · rintro ⟨T, hT⟩
    cases hres : (flattenP P).foldlM
        (fun t sao => stepOutcome false n sao.1 sao.2.1 t sao.2.2)
        (fun _ _ _ => 0) with
    | error e =>
      rw [hres] at hT
      exact Except.noConfusion hT
    | ok v =>
      exact (flat_false_ok_iff n (flattenP P) (fun _ _ _ => 0)).mp ⟨v, hres⟩
  · intro hall
    rcases (flat_false_ok_iff n (flattenP P) (fun _ _ _ => 0)).mpr hall with ⟨r, hr⟩
    rw [hr]
    exact ⟨r, rfl⟩

/-- Claim C1 counterexample: a fully covered, fully stochastic transition
structure in which a done outcome leads to a state that is not a
terminal self-loop; the built tensor has a row summing to 2, far
outside the 1e-9 tolerance around 1. -/
theorem transition_tensor_row_sum_two :
    (get_transition_matrix
      [(0, [(0, [⟨1, 1, 0, true⟩])]),
       (1, [(0, [⟨1, 2, 0, false⟩])]),
       (2, [(0, [⟨1, 0, 0, false⟩])])] 3 1 true).toOption.map
      (fun T => ∑ x ∈ Finset.range 4, T 1 0 x) = some 2 ∧
    ¬(|(2 : ℚ) - 1| ≤ 1 / 1000000000) := by
  constructor
  · rw [get_transition_matrix_true_eq]
    simp only [Except.toOption, Option.map, Option.some.injEq]
    norm_num [flattenP, runFlat, stepOutcomeT, addProb, rewireRow,
      Finset.sum_range_succ]
  · norm_num

/-- Claim C1 witness: the amended theorem applied to a two-state chain with a
terminal second state, in the standard gym convention. -/
theorem transition_tensor_valid_witness :
    (∑ x ∈ Finset.range 3, (fun s' a' x' =>
      if s' = 2 ∧ x' = 2 then (1 : ℚ)
      else runFlat 3 (flattenP
        [(0, [(0, [⟨1, 1, 0, true⟩])]), (1, [(0, [⟨1, 1, 0, true⟩])])])
        (fun _ _ _ => 0) s' a' x') 0 0 x = 1) ∧
    ((fun s' a' x' =>
      if s' = 2 ∧ x' = 2 then (1 : ℚ)
      else runFlat 3 (flattenP
        [(0, [(0, [⟨1, 1, 0, true⟩])]), (1, [(0, [⟨1, 1, 0, true⟩])])])
        (fun _ _ _ => 0) s' a' x') 2 0 2 = if (2 : ℕ) = 2 then 1 else 0) := by
  have h := transition_tensor_valid
    [(0, [(0, [⟨1, 1, 0, true⟩])]), (1, [(0, [⟨1, 1, 0, true⟩])])] 2 1
    (fun s' a' x' =>
      if s' = 2 ∧ x' = 2 then (1 : ℚ)
      else runFlat 3 (flattenP
        [(0, [(0, [⟨1, 1, 0, true⟩])]), (1, [(0, [⟨1, 1, 0, true⟩])])])
        (fun _ _ _ => 0) s' a' x')
    (by decide)
    (by
      intro s hs a ha
      interval_cases s <;> interval_cases a <;>
        norm_num [rowProbSum, flattenP])
    ?_ (get_transition_matrix_true_eq
      [(0, [(0, [⟨1, 1, 0, true⟩])]), (1, [(0, [⟨1, 1, 0, true⟩])])] 2 1)
  · exact ⟨h.1 0 (by norm_num) 0 (by norm_num), h.2 0 2⟩
  · intro u hu
    rcases hu with ⟨sao, hmem, hd, hn⟩
    have hu1 : u = 1 := by
      have hmem' : sao = ((0 : ℕ), (0 : ℕ), (⟨1, 1, 0, true⟩ : Outcome)) ∨
          sao = ((1 : ℕ), (0 : ℕ), (⟨1, 1, 0, true⟩ : Outcome)) := by
        simpa [flattenP] using hmem
      rcases hmem' with rfl | rfl
      · exact hn.symm
      · exact hn.symm
    subst hu1
    decide

/-- The variant of the reward function attached through the reward
wrapper, as dispatched by the isinstance checks of get_reward_matrix:
feature based, tabular with its action_in_domain and
next_state_in_domain flags, or an unrecognized variant. -/
inductive RFKind where
  | featureBased : RFKind
  | tabular : Bool → Bool → RFKind
  | other : RFKind
  deriving DecidableEq

/-- First block of get_reward_matrix (utils.py lines 90-109): with a
reward wrapper attached, every reward entry of the transition structure
is recomputed by consulting the attached reward function on the
(state, action, next_state) triple, and the rebuilt dict is assigned to
discrete_env.P. The helpers is_unwrappable_to_subclass_of and
unwrap_to_subclass_of used to pick the reward input are not among the
two source files; both branches end in reward_function.reward(input)
.item(), a scalar determined by (state, action, next_state), modelled
here by the oracle r1. -/
def recompute1 (r1 : ℕ → ℕ → ℕ → ℚ) (P : PStruct) : PStruct :=
  P.map (fun sal => (sal.1, sal.2.map (fun ao =>
    (ao.1, ao.2.map (fun o => { o with reward := r1 sal.1 ao.1 o.next_state })))))

/-- Terminal rewiring for one outcome list (utils.py lines 123-129): a
list that is a single done self-loop of its state is replaced by the
single outcome (1.0, n_states - 1, 0, True) into the absorbing state. -/
def rewireOutcomes (nS s : ℕ) (os : List Outcome) : List Outcome :=
  match os with
  | [o] => if o.next_state = s ∧ o.done = true then [⟨1, nS - 1, 0, true⟩] else [o]
  | os => os

/-- Terminal rewiring of the whole structure (utils.py lines 121-129). -/
def rewireTerminal (nS : ℕ) (P : PStruct) : PStruct :=
  P.map (fun sal => (sal.1, sal.2.map (fun ao =>
    (ao.1, rewireOutcomes nS sal.1 ao.2))))

/-- Reward recomputation for one outcome in the second block of
get_reward_matrix (utils.py lines 142-172): a transition into the
absorbing state is hard coded to reward 0 without consulting the reward
function; otherwise the reward function is consulted according to its
variant, the tabular variant first asserting that neither the action
nor the next state is in its domain, and an unrecognized variant
raising a ValueError. rFeat models
reward(features(None, None, next_state)) and rTab models
reward(get_reward_input_for(None, None, next_state)). -/
def recompute2Outcome (wa : Bool) (nS : ℕ) (kind : RFKind)
    (rFeat rTab : ℕ → ℚ) (o : Outcome) : Except String Outcome :=
  if wa = true ∧ o.next_state = nS - 1 then
    Except.ok { o with reward := 0 }
  else
    match kind with
    | RFKind.featureBased => Except.ok { o with reward := rFeat o.next_state }
    | RFKind.tabular aid nid =>
        if aid = true then Except.error "AssertionError: action_in_domain"
        else if nid = true then Except.error "AssertionError: next_state_in_domain"
        else Except.ok { o with reward := rTab o.next_state }
    | RFKind.other => Except.error "ValueError: unsupported reward function type"

/-- Second block of get_reward_matrix (utils.py lines 131-174):
recompute every reward of correct_P from the attached reward function,
keeping the nesting structure. -/
def recompute2 (wa : Bool) (nS : ℕ) (kind : RFKind) (rFeat rTab : ℕ → ℚ)
    (P : PStruct) : Except String PStruct :=
  P.mapM (fun sal => do
    let al ← sal.2.mapM (fun ao => do
      let os ← ao.2.mapM (recompute2Outcome wa nS kind rFeat rTab)
      pure (ao.1, os))
    pure (sal.1, al))

/-- The final accumulation loop of get_reward_matrix (utils.py lines
178-186): rewards[s, a] += r * proba over the flattened traversal. -/
def accumRewards (L : List (ℕ × ℕ × Outcome)) (m : ℕ → ℕ → ℚ) : ℕ → ℕ → ℚ :=
  L.foldl (fun m sao => fun s' a' =>
    if s' = sao.1 ∧ a' = sao.2.1
    then m s' a' + sao.2.2.reward * sao.2.2.probability
    else m s' a') m

/-- get_reward_matrix of utils/utils.py. The env is given by its
transition structure P, state count n, action count nA, a flag telling
whether a reward wrapper is attached, the variant of the attached
reward function, and the three reward oracles. The python function also
mutates the wrapped discrete env: block 1 assigns the recomputed dict
to discrete_env.P, and correct_P = copy(discrete_env.P) at line 119 is
a shallow copy sharing the per-state dicts, so the terminal rewiring at
line 129 writes through into discrete_env.P; the final content of
discrete_env.P is therefore exactly correct_P as it stands before the
second recomputation, and it is returned here as the second component.
The second block builds fresh dicts and is never assigned back. -/
def get_reward_matrix (P : PStruct) (n nA : ℕ) (wa : Bool)
    (hasRewardWrapper : Bool) (kind : RFKind)
    (r1 : ℕ → ℕ → ℕ → ℚ) (rFeat rTab : ℕ → ℚ) :
    Except String ((ℕ → ℕ → ℚ) × PStruct) :=
  let envP1 := if hasRewardWrapper then recompute1 r1 P else P
  let nS := if wa then n + 1 else n
  let correct_P := if wa then rewireTerminal nS envP1 else envP1
  let lastRowZero : (ℕ → ℕ → ℚ) → (ℕ → ℕ → ℚ) := fun m =>
    if wa then (fun s' a' => if s' = nS - 1 then 0 else m s' a') else m
  if hasRewardWrapper then
    (recompute2 wa nS kind rFeat rTab correct_P).map (fun P2 =>
      (lastRowZero (accumRewards (flattenP P2) (fun _ _ => 0)), correct_P))
  else
    Except.ok (lastRowZero (accumRewards (flattenP correct_P) (fun _ _ => 0)),
      correct_P)

theorem mapM_ok_forall {α β : Type} (f : α → Except String β) (p : β → Prop)
    (hf : ∀ x y, f x = Except.ok y → p y) :
    ∀ (l : List α) (l2 : List β), l.mapM f = Except.ok l2 → ∀ y ∈ l2, p y := by
  intro l
  induction l with
  | nil =>
    intro l2 h y hy
    rw [List.mapM_nil] at h
    have h' : ([] : List β) = l2 := Except.ok.inj h
    subst h'
    exact absurd hy (List.not_mem_nil _)
  | cons hd tl ih =>
    intro l2 h y hy
    rw [List.mapM_cons] at h
    cases hfhd : f hd with
    | error e =>
      rw [hfhd] at h
      have h' : (Except.error e : Except String (List β)) = Except.ok l2 := h
      exact Except.noConfusion h'
    | ok z =>
      rw [hfhd] at h
      cases hrest : tl.mapM f with
      | error e =>
        rw [hrest] at h
        have h' : (Except.error e : Except String (List β)) = Except.ok l2 := h
        exact Except.noConfusion h'
      | ok zs =>
        rw [hrest] at h
        have h' : Except.ok (z :: zs) = Except.ok l2 := h
        have h'' := Except.ok.inj h'
        subst h''
        rcases List.mem_cons.mp hy with rfl | hy'
        · exact hf hd y hfhd
        · exact ih zs hrest y hy'

theorem mapM_congr {α β : Type} (f g : α → Except String β) :
    ∀ l : List α, (∀ x ∈ l, f x = g x) → l.mapM f = l.mapM g := by
  intro l
  induction l with
  | nil => intro _; rfl
  | cons hd tl ih =>
    intro h
    rw [List.mapM_cons, List.mapM_cons, h hd (List.mem_cons_self _ _),
      ih (fun x hx => h x (List.mem_cons_of_mem _ hx))]

theorem mapM_dichotomy {α β : Type} (f : α → Except String β) (e : String) :
    ∀ l : List α, (∀ x ∈ l, (∃ z, f x = Except.ok z) ∨ f x = Except.error e) →
    (∃ l2, l.mapM f = Except.ok l2) ∨ l.mapM f = Except.error e := by
  intro l
  induction l with
  | nil => intro _; exact Or.inl ⟨[], rfl⟩
  | cons hd tl ih =>
    intro h
    rw [List.mapM_cons]
    rcases h hd (List.mem_cons_self _ _) with ⟨z, hz⟩ | hz
    · rw [hz]
      rcases ih (fun x hx => h x (List.mem_cons_of_mem _ hx)) with ⟨l2, hl2⟩ | hl2
      · rw [hl2]
        exact Or.inl ⟨z :: l2, rfl⟩
      · rw [hl2]
        exact Or.inr rfl
    · rw [hz]
      exact Or.inr rfl

theorem mapM_error_of_exists {α β : Type} (f : α → Except String β) (e : String) :
    ∀ l : List α, (∀ x ∈ l, (∃ z, f x = Except.ok z) ∨ f x = Except.error e) →
    (∃ x ∈ l, f x = Except.error e) → l.mapM f = Except.error e := by
  intro l
  induction l with
  | nil =>
    rintro _ ⟨x, hx, _⟩
    exact absurd hx (List.not_mem_nil _)
  | cons hd tl ih =>
    rintro h ⟨x, hx, hfx⟩
    rw [List.mapM_cons]
    rcases List.mem_cons.mp hx with rfl | hx'
    · rw [hfx]
      rfl
    · rcases h hd (List.mem_cons_self _ _) with ⟨z, hz⟩ | hz
      · rw [hz, ih (fun y hy => h y (List.mem_cons_of_mem _ hy)) ⟨x, hx', hfx⟩]
        rfl
      · rw [hz]
        rfl

theorem recompute2Outcome_absorbing_reward (nS : ℕ) (kind : RFKind)
    (rFeat rTab : ℕ → ℚ) (o o' : Outcome)
    (h : recompute2Outcome true nS kind rFeat rTab o = Except.ok o') :
    o'.next_state = nS - 1 → o'.reward = 0 := by
  unfold recompute2Outcome at h
  by_cases hc : o.next_state = nS - 1
  · rw [if_pos ⟨rfl, hc⟩] at h
    have h' := Except.ok.inj h
    subst h'
    intro _
    rfl
  · have hc' : ¬(true = true ∧ o.next_state = nS - 1) := fun hx => hc hx.2
    rw [if_neg hc'] at h
    cases kind with
    | featureBased =>
      have h' := Except.ok.inj h
      subst h'
      intro habs
      exact absurd habs hc
    | tabular aid nid =>
      cases aid with
      | true => exact Except.noConfusion h
      | false =>
        cases nid with
        | true => exact Except.noConfusion h
        | false =>
          have h' := Except.ok.inj h
          subst h'
          intro habs
          exact absurd habs hc
    | other => exact Except.noConfusion h

/-- Every outcome of the structure produced by the second recomputation
block that enters the absorbing state carries reward 0. -/
theorem recompute2_absorbing_reward (nS : ℕ) (kind : RFKind)
    (rFeat rTab : ℕ → ℚ) (Pc P2 : PStruct)
    (h : recompute2 true nS kind rFeat rTab Pc = Except.ok P2) :
    ∀ sao ∈ flattenP P2, sao.2.2.next_state = nS - 1 → sao.2.2.reward = 0 := by
  intro sao hmem
  rcases List.mem_flatMap.mp hmem with ⟨sal, hsal, hmem2⟩
  rcases List.mem_flatMap.mp hmem2 with ⟨ao, hao, hmem3⟩
  rcases List.mem_map.mp hmem3 with ⟨o, ho, rfl⟩
  unfold recompute2 at h
  have hp := mapM_ok_forall _
    (fun sal : ℕ × List (ℕ × List Outcome) => ∀ ao ∈ sal.2, ∀ o ∈ ao.2,
      o.next_state = nS - 1 → o.reward = 0) ?_ Pc P2 h sal hsal
  · exact hp ao hao o ho
  · intro x y hxy
    cases hal : x.2.mapM (fun ao => do
        let os ← ao.2.mapM (recompute2Outcome true nS kind rFeat rTab)
        pure (ao.1, os)) with
    | error e =>
      rw [hal] at hxy
      have h' : (Except.error e : Except String (ℕ × List (ℕ × List Outcome))) =
        Except.ok y := hxy
      exact Except.noConfusion h'
    | ok al =>
      rw [hal] at hxy
      have h' : Except.ok (x.1, al) = Except.ok y := hxy
      have h'' := Except.ok.inj h'
      subst h''
      intro ao2 hao2 o2 ho2 hnext2
      have hq := mapM_ok_forall _
        (fun ao' : ℕ × List Outcome => ∀ o ∈ ao'.2,
          o.next_state = nS - 1 → o.reward = 0) ?_ x.2 al hal ao2 hao2
      · exact hq o2 ho2 hnext2
      · intro u v huv
        cases hos : u.2.mapM (recompute2Outcome true nS kind rFeat rTab) with
        | error e =>
          rw [hos] at huv
          have h3 : (Except.error e : Except String (ℕ × List Outcome)) =
            Except.ok v := huv
          exact Except.noConfusion h3
        | ok os =>
          rw [hos] at huv
          have h3 : Except.ok (u.1, os) = Except.ok v := huv
          have h4 := Except.ok.inj h3
          subst h4
          intro o3 ho3 hnext3
          exact mapM_ok_forall _
            (fun o' : Outcome => o'.next_state = nS - 1 → o'.reward = 0)
            (fun a b hab =>
              recompute2Outcome_absorbing_reward nS kind rFeat rTab a b hab)
            u.2 os hos o3 ho3 hnext3

theorem mem_rewireOutcomes (nS s : ℕ) (os : List Outcome) (o' : Outcome)
    (h : o' ∈ rewireOutcomes nS s os) :
    o'.next_state = nS - 1 ∨ o' ∈ os := by
  rcases os with _ | ⟨o0, _ | ⟨o1, rest⟩⟩
  · exact Or.inr h
  · rw [show rewireOutcomes nS s [o0] =
        (if o0.next_state = s ∧ o0.done = true
          then [⟨1, nS - 1, 0, true⟩] else [o0]) from rfl] at h
    by_cases hc : o0.next_state = s ∧ o0.done = true
    · rw [if_pos hc] at h
      have h' := List.mem_singleton.mp h
      subst h'
      exact Or.inl rfl
    · rw [if_neg hc] at h
      exact Or.inr h
  · exact Or.inr h

theorem mem_flattenP_rewireTerminal (nS n : ℕ) (P : PStruct)
    (hrange : ∀ sao ∈ flattenP P, sao.2.2.next_state < n) :
    ∀ sao ∈ flattenP (rewireTerminal nS P),
      sao.2.2.next_state = nS - 1 ∨ sao.2.2.next_state < n := by
  intro sao hmem
  rcases List.mem_flatMap.mp hmem with ⟨sal', hsal', hmem2⟩
  rcases List.mem_map.mp hsal' with ⟨sal, hsal, rfl⟩
  rcases List.mem_flatMap.mp hmem2 with ⟨ao', hao', hmem3⟩
  rcases List.mem_map.mp hao' with ⟨ao, hao, rfl⟩
  rcases List.mem_map.mp hmem3 with ⟨o, ho, rfl⟩
  rcases mem_rewireOutcomes nS sal.1 ao.2 o ho with hl | hr
  · exact Or.inl hl
  · exact Or.inr (hrange (sal.1, ao.1, o) (List.mem_flatMap.mpr
      ⟨sal, hsal, List.mem_flatMap.mpr
        ⟨ao, hao, List.mem_map.mpr ⟨o, hr, rfl⟩⟩⟩))

theorem recompute1_congr (r1 r1' : ℕ → ℕ → ℕ → ℚ) (P : PStruct) (n : ℕ)
    (hrange : ∀ sao ∈ flattenP P, sao.2.2.next_state < n)
    (hagree : ∀ s a x, x ≠ n → r1 s a x = r1' s a x) :
    recompute1 r1 P = recompute1 r1' P := by
  unfold recompute1
  apply List.map_congr_left
  intro sal hsal
  have h2 : sal.2.map (fun ao =>
      (ao.1, ao.2.map (fun o => { o with reward := r1 sal.1 ao.1 o.next_state }))) =
      sal.2.map (fun ao =>
      (ao.1, ao.2.map (fun o => { o with reward := r1' sal.1 ao.1 o.next_state }))) := by
    apply List.map_congr_left
    intro ao hao
    have h3 : ao.2.map (fun o => { o with reward := r1 sal.1 ao.1 o.next_state }) =
        ao.2.map (fun o => { o with reward := r1' sal.1 ao.1 o.next_state }) := by
      apply List.map_congr_left
      intro o ho
      have hlt : o.next_state < n := hrange (sal.1, ao.1, o) (List.mem_flatMap.mpr
        ⟨sal, hsal, List.mem_flatMap.mpr
          ⟨ao, hao, List.mem_map.mpr ⟨o, ho, rfl⟩⟩⟩)
      rw [hagree sal.1 ao.1 o.next_state (Nat.ne_of_lt hlt)]
    rw [h3]
  rw [h2]

theorem recompute2Outcome_congr (nS : ℕ) (kind : RFKind)
    (rFeat rFeat' rTab rTab' : ℕ → ℚ) (o : Outcome)
    (hagree : o.next_state ≠ nS - 1 →
      rFeat o.next_state = rFeat' o.next_state ∧
      rTab o.next_state = rTab' o.next_state) :
    recompute2Outcome true nS kind rFeat rTab o =
    recompute2Outcome true nS kind rFeat' rTab' o := by
  unfold recompute2Outcome
  by_cases hc : o.next_state = nS - 1
  · rw [if_pos ⟨rfl, hc⟩, if_pos ⟨rfl, hc⟩]
  · have hc' : ¬(true = true ∧ o.next_state = nS - 1) := fun hx => hc hx.2
    rw [if_neg hc', if_neg hc']
    cases kind with
    | featureBased => rw [(hagree hc).1]
    | tabular aid nid =>
      cases aid with
      | true => rfl
      | false =>
        cases nid with
        | true => rfl
        | false => rw [(hagree hc).2]
    | other => rfl

/-- The second recomputation block only consults the oracles at
next states that are not the absorbing state. -/
theorem recompute2_congr (nS n : ℕ) (kind : RFKind)
    (rFeat rFeat' rTab rTab' : ℕ → ℚ) (Pc : PStruct)
    (hnext : ∀ sao ∈ flattenP Pc,
      sao.2.2.next_state = nS - 1 ∨ sao.2.2.next_state < n)
    (hF : ∀ x, x ≠ n → rFeat x = rFeat' x)
    (hT : ∀ x, x ≠ n → rTab x = rTab' x) :
    recompute2 true nS kind rFeat rTab Pc =
    recompute2 true nS kind rFeat' rTab' Pc := by
  unfold recompute2
  apply mapM_congr
  intro sal hsal
  have h2 : sal.2.mapM (fun ao => do
      let os ← ao.2.mapM (recompute2Outcome true nS kind rFeat rTab)
      pure (ao.1, os)) =
      sal.2.mapM (fun ao => do
      let os ← ao.2.mapM (recompute2Outcome true nS kind rFeat' rTab')
      pure (ao.1, os)) := by
    apply mapM_congr
    intro ao hao
    have h3 : ao.2.mapM (recompute2Outcome true nS kind rFeat rTab) =
        ao.2.mapM (recompute2Outcome true nS kind rFeat' rTab') := by
      apply mapM_congr
      intro o ho
      apply recompute2Outcome_congr
      intro hne
      have hmem : (sal.1, ao.1, o) ∈ flattenP Pc := List.mem_flatMap.mpr
        ⟨sal, hsal, List.mem_flatMap.mpr
          ⟨ao, hao, List.mem_map.mpr ⟨o, ho, rfl⟩⟩⟩
      rcases hnext (sal.1, ao.1, o) hmem with habs | hlt
      · exact absurd habs hne
      · have hne' : o.next_state ≠ n := Nat.ne_of_lt hlt
        exact ⟨hF o.next_state hne', hT o.next_state hne'⟩
    rw [h3]
  rw [h2]

theorem mem_flattenP_recompute1 (r1 : ℕ → ℕ → ℕ → ℚ) (P : PStruct)
    (sao : ℕ × ℕ × Outcome) (h : sao ∈ flattenP (recompute1 r1 P)) :
    ∃ sao' ∈ flattenP P, sao.2.2.next_state = sao'.2.2.next_state := by
  rcases List.mem_flatMap.mp h with ⟨sal', hsal', h2⟩
  rcases List.mem_map.mp hsal' with ⟨sal, hsal, rfl⟩
  rcases List.mem_flatMap.mp h2 with ⟨ao', hao', h3⟩
  rcases List.mem_map.mp hao' with ⟨ao, hao, rfl⟩
  rcases List.mem_map.mp h3 with ⟨o', ho', rfl⟩
  rcases List.mem_map.mp ho' with ⟨o, ho, rfl⟩
  exact ⟨(sal.1, ao.1, o), List.mem_flatMap.mpr
    ⟨sal, hsal, List.mem_flatMap.mpr
      ⟨ao, hao, List.mem_map.mpr ⟨o, ho, rfl⟩⟩⟩, rfl⟩

/-- Unfolding of get_reward_matrix in the wrapped, absorbing case. -/
theorem get_reward_matrix_wrapper_eq (P : PStruct) (n nA : ℕ) (kind : RFKind)
    (r1 : ℕ → ℕ → ℕ → ℚ) (rFeat rTab : ℕ → ℚ) :
    get_reward_matrix P n nA true true kind r1 rFeat rTab =
      (recompute2 true (n + 1) kind rFeat rTab
        (rewireTerminal (n + 1) (recompute1 r1 P))).map (fun P2 =>
        ((fun s' a' => if s' = n then (0 : ℚ)
            else accumRewards (flattenP P2) (fun _ _ => 0) s' a'),
          rewireTerminal (n + 1) (recompute1 r1 P))) := by
  unfold get_reward_matrix
  simp only [if_true, Nat.add_sub_cancel]

/-- Claim C3: with a reward wrapper attached and the absorbing state enabled,
every outcome of the structure from which the reward matrix is
accumulated that enters the absorbing state carries reward 0, the
absorbing-state row of the returned reward matrix is identically 0,
and the result depends only on the oracle values away from the
absorbing state, so the attached reward function is never consulted
for transitions into the absorbing state. -/
theorem reward_absorbing_invariant (P : PStruct) (n nA : ℕ) (kind : RFKind)
    (r1 r1' : ℕ → ℕ → ℕ → ℚ) (rFeat rFeat' rTab rTab' : ℕ → ℚ)
    (hrange : ∀ sao ∈ flattenP P, sao.2.2.next_state < n) :
    (∀ P2, recompute2 true (n + 1) kind rFeat rTab
        (rewireTerminal (n + 1) (recompute1 r1 P)) = Except.ok P2 →
      ∀ sao ∈ flattenP P2, sao.2.2.next_state = n → sao.2.2.reward = 0) ∧
    (∀ M Pf, get_reward_matrix P n nA true true kind r1 rFeat rTab =
        Except.ok (M, Pf) → ∀ a, M n a = 0) ∧
    ((∀ s a x, x ≠ n → r1 s a x = r1' s a x) →
     (∀ x, x ≠ n → rFeat x = rFeat' x) →
     (∀ x, x ≠ n → rTab x = rTab' x) →
     get_reward_matrix P n nA true true kind r1 rFeat rTab =
     get_reward_matrix P n nA true true kind r1' rFeat' rTab') := by
  refine ⟨?_, ?_, ?_⟩
  · intro P2 h
    have hmain := recompute2_absorbing_reward (n + 1) kind rFeat rTab _ P2 h
    simpa [Nat.add_sub_cancel] using hmain
  · intro M Pf h
    rw [get_reward_matrix_wrapper_eq] at h
    cases hres : recompute2 true (n + 1) kind rFeat rTab
        (rewireTerminal (n + 1) (recompute1 r1 P)) with
    | error e =>
      rw [hres] at h
      have h' : (Except.error e : Except String ((ℕ → ℕ → ℚ) × PStruct)) =
        Except.ok (M, Pf) := h
      exact Except.noConfusion h'
    | ok P2 =>
      rw [hres] at h
      have h' : Except.ok
          ((fun s' a' => if s' = n then (0 : ℚ)
            else accumRewards (flattenP P2) (fun _ _ => 0) s' a'),
           rewireTerminal (n + 1) (recompute1 r1 P)) = Except.ok (M, Pf) := h
      have h'' := Except.ok.inj h'
      have hM : (fun s' a' => if s' = n then (0 : ℚ)
          else accumRewards (flattenP P2) (fun _ _ => 0) s' a') = M :=
        congrArg Prod.fst h''
      intro a
      rw [← hM]
      simp
  · intro hr1 hF hT
    rw [get_reward_matrix_wrapper_eq, get_reward_matrix_wrapper_eq]
    have h1 : recompute1 r1 P = recompute1 r1' P :=
      recompute1_congr r1 r1' P n hrange hr1
    rw [← h1]
    have hrange1 : ∀ sao ∈ flattenP (recompute1 r1 P),
        sao.2.2.next_state < n := by
      intro sao hmem
      rcases mem_flattenP_recompute1 r1 P sao hmem with ⟨sao', hmem', heq⟩
      rw [heq]
      exact hrange sao' hmem'
    have hnext : ∀ sao ∈ flattenP (rewireTerminal (n + 1) (recompute1 r1 P)),
        sao.2.2.next_state = (n + 1) - 1 ∨ sao.2.2.next_state < n :=
      mem_flattenP_rewireTerminal (n + 1) n (recompute1 r1 P) hrange1
    have h2 := recompute2_congr (n + 1) n kind rFeat rFeat' rTab rTab'
      (rewireTerminal (n + 1) (recompute1 r1 P))
      (by simpa [Nat.add_sub_cancel] using hnext) hF hT
    rw [h2]

/-- Claim C9: with a reward wrapper attached and the absorbing state enabled,
after get_reward_matrix returns, the P of the wrapped discrete env is
the block-1 recomputation of the original transition structure (every
reward replaced by a value of the attached reward function) with
terminal self-loops rewired onto the absorbing state, written through
the shallow copy; at the second conjunct a concrete instance shows it
is in general no longer the original transition structure. -/
theorem reward_matrix_mutates_P (P : PStruct) (n nA : ℕ) (kind : RFKind)
    (r1 : ℕ → ℕ → ℕ → ℚ) (rFeat rTab : ℕ → ℚ) (M : ℕ → ℕ → ℚ) (Pf : PStruct)
    (hok : get_reward_matrix P n nA true true kind r1 rFeat rTab =
      Except.ok (M, Pf)) :
    Pf = rewireTerminal (n + 1) (recompute1 r1 P) ∧
    rewireTerminal 2 (recompute1 (fun _ _ _ => (7 : ℚ))
        [(0, [(0, [⟨1, 0, 5, true⟩])])]) ≠
      [(0, [(0, [⟨1, 0, 5, true⟩])])] := by
  constructor
  · rw [get_reward_matrix_wrapper_eq] at hok
    cases hres : recompute2 true (n + 1) kind rFeat rTab
        (rewireTerminal (n + 1) (recompute1 r1 P)) with
    | error e =>
      rw [hres] at hok
      have h' : (Except.error e : Except String ((ℕ → ℕ → ℚ) × PStruct)) =
        Except.ok (M, Pf) := hok
      exact Except.noConfusion h'
    | ok P2 =>
      rw [hres] at hok
      have h' : Except.ok
          ((fun s' a' => if s' = n then (0 : ℚ)
            else accumRewards (flattenP P2) (fun _ _ => 0) s' a'),
           rewireTerminal (n + 1) (recompute1 r1 P)) = Except.ok (M, Pf) := hok
      have h'' := Except.ok.inj h'
      exact (congrArg Prod.snd h'').symm
  · decide

/-- With an unrecognized reward-function variant, the second
recomputation block raises the ValueError as soon as it reaches an
outcome that does not enter the absorbing state. -/
theorem recompute2_other_error (nS : ℕ) (rFeat rTab : ℕ → ℚ) (Pc : PStruct)
    (hsome : ∃ sao ∈ flattenP Pc, sao.2.2.next_state ≠ nS - 1) :
    recompute2 true nS RFKind.other rFeat rTab Pc =
      Except.error "ValueError: unsupported reward function type" := by
  rcases hsome with ⟨sao, hmem, hne⟩
  rcases List.mem_flatMap.mp hmem with ⟨sal, hsal, h2⟩
  rcases List.mem_flatMap.mp h2 with ⟨ao, hao, h3⟩
  rcases List.mem_map.mp h3 with ⟨o, ho, rfl⟩
  have hOutDich : ∀ o' : Outcome,
      (∃ z, recompute2Outcome true nS RFKind.other rFeat rTab o' = Except.ok z) ∨
      recompute2Outcome true nS RFKind.other rFeat rTab o' =
        Except.error "ValueError: unsupported reward function type" := by
    intro o'
    unfold recompute2Outcome
    by_cases hc : o'.next_state = nS - 1
    · exact Or.inl ⟨_, by rw [if_pos ⟨rfl, hc⟩]⟩
    · right
      rw [if_neg (fun hx => hc hx.2)]
  have hOutErr : recompute2Outcome true nS RFKind.other rFeat rTab o =
      Except.error "ValueError: unsupported reward function type" := by
    unfold recompute2Outcome
    rw [if_neg (fun hx => hne hx.2)]
  have hActDich : ∀ ao' : ℕ × List Outcome,
      (∃ z, (do
        let os ← ao'.2.mapM (recompute2Outcome true nS RFKind.other rFeat rTab)
        pure (ao'.1, os) : Except String (ℕ × List Outcome)) = Except.ok z) ∨
      (do
        let os ← ao'.2.mapM (recompute2Outcome true nS RFKind.other rFeat rTab)
        pure (ao'.1, os) : Except String (ℕ × List Outcome)) =
        Except.error "ValueError: unsupported reward function type" := by
    intro ao'
    rcases mapM_dichotomy (recompute2Outcome true nS RFKind.other rFeat rTab)
        "ValueError: unsupported reward function type" ao'.2
        (fun x _ => hOutDich x) with ⟨l2, hl2⟩ | hl2
    · rw [hl2]
      exact Or.inl ⟨(ao'.1, l2), rfl⟩
    · rw [hl2]
      exact Or.inr rfl
  have hActErr : (do
      let os ← ao.2.mapM (recompute2Outcome true nS RFKind.other rFeat rTab)
      pure (ao.1, os) : Except String (ℕ × List Outcome)) =
      Except.error "ValueError: unsupported reward function type" := by
    rw [mapM_error_of_exists (recompute2Outcome true nS RFKind.other rFeat rTab)
      "ValueError: unsupported reward function type" ao.2
      (fun x _ => hOutDich x) ⟨o, ho, hOutErr⟩]
    rfl
  have hStDich : ∀ sal' : ℕ × List (ℕ × List Outcome),
      (∃ z, (do
        let al ← sal'.2.mapM (fun ao' => do
          let os ← ao'.2.mapM (recompute2Outcome true nS RFKind.other rFeat rTab)
          pure (ao'.1, os))
        pure (sal'.1, al) : Except String (ℕ × List (ℕ × List Outcome))) =
          Except.ok z) ∨
      (do
        let al ← sal'.2.mapM (fun ao' => do
          let os ← ao'.2.mapM (recompute2Outcome true nS RFKind.other rFeat rTab)
          pure (ao'.1, os))
        pure (sal'.1, al) : Except String (ℕ × List (ℕ × List Outcome))) =
        Except.error "ValueError: unsupported reward function type" := by
    intro sal'
    rcases mapM_dichotomy _ "ValueError: unsupported reward function type"
        sal'.2 (fun x _ => hActDich x) with ⟨l2, hl2⟩ | hl2
    · rw [hl2]
      exact Or.inl ⟨(sal'.1, l2), rfl⟩
    · rw [hl2]
      exact Or.inr rfl
  have hStErr : (do
      let al ← sal.2.mapM (fun ao' => do
        let os ← ao'.2.mapM (recompute2Outcome true nS RFKind.other rFeat rTab)
        pure (ao'.1, os))
      pure (sal.1, al) : Except String (ℕ × List (ℕ × List Outcome))) =
      Except.error "ValueError: unsupported reward function type" := by
    rw [mapM_error_of_exists _ "ValueError: unsupported reward function type"
      sal.2 (fun x _ => hActDich x) ⟨ao, hao, hActErr⟩]
    rfl
  unfold recompute2
  exact mapM_error_of_exists _ "ValueError: unsupported reward function type"
    Pc (fun x _ => hStDich x) ⟨sal, hsal, hStErr⟩

/-- Claim C8 (amended): with a reward wrapper whose reward function is of an
unrecognized variant, get_reward_matrix raises the ValueError provided
at least one outcome of the rewired structure does not enter the
absorbing state; the error propagates unchanged to the caller. -/
theorem reward_unrecognized_raises (P : PStruct) (n nA : ℕ)
    (r1 : ℕ → ℕ → ℕ → ℚ) (rFeat rTab : ℕ → ℚ)
    (hsome : ∃ sao ∈ flattenP (rewireTerminal (n + 1) (recompute1 r1 P)),
      sao.2.2.next_state ≠ n) :
    get_reward_matrix P n nA true true RFKind.other r1 rFeat rTab =
      Except.error "ValueError: unsupported reward function type" := by
  rw [get_reward_matrix_wrapper_eq]
  rw [recompute2_other_error (n + 1) rFeat rTab _
    (by simpa [Nat.add_sub_cancel] using hsome)]
  rfl

/-- Claim C8 counterexample: a reward wrapper with an unrecognized reward
function on an environment whose only transition is a terminal
self-loop; after rewiring, every outcome enters the absorbing state,
the reward function is never consulted, and get_reward_matrix returns
normally instead of raising. -/
theorem reward_unrecognized_silent :
    (get_reward_matrix [(0, [(0, [⟨1, 0, 0, true⟩])])] 1 1 true true
      RFKind.other (fun _ _ _ => 0) (fun _ => 0) (fun _ => 0)).toOption.isSome
      = true := by
  rfl

/-- Claim C8 witness: the amended theorem applied to an environment with a
non-terminal self-loop, where the consultation is reached and the
ValueError surfaces. -/
theorem reward_unrecognized_raises_witness :
    get_reward_matrix [(0, [(0, [⟨1, 0, 0, false⟩])])] 1 1 true true
      RFKind.other (fun _ _ _ => 0) (fun _ => 0) (fun _ => 0) =
      Except.error "ValueError: unsupported reward function type" := by
  apply reward_unrecognized_raises
  refine ⟨(0, 0, ⟨1, 0, 0, false⟩), ?_, by decide⟩
  decide

/-- Claim C3 witness: the absorbing-reward invariant applied to a one-state
terminal environment with concrete oracles, including a pair of oracle
families that agree away from the absorbing state. -/
theorem reward_absorbing_invariant_witness :
    ((⟨1, 1, 0, true⟩ : Outcome).reward = 0) ∧
    (((get_reward_matrix [(0, [(0, [⟨1, 0, 5, true⟩])])] 1 1 true true
        RFKind.featureBased (fun _ _ _ => 2) (fun _ => 3)
        (fun _ => 4)).toOption.getD ((fun _ _ => 0), [])).1 1 0 = 0) ∧
    (get_reward_matrix [(0, [(0, [⟨1, 0, 5, true⟩])])] 1 1 true true
        RFKind.featureBased (fun _ _ _ => 2) (fun _ => 3) (fun _ => 4) =
     get_reward_matrix [(0, [(0, [⟨1, 0, 5, true⟩])])] 1 1 true true
        RFKind.featureBased (fun _ _ x => if x = 1 then 50 else 2)
        (fun x => if x = 1 then 99 else 3) (fun x => if x = 1 then 88 else 4)) := by
  have h := reward_absorbing_invariant [(0, [(0, [⟨1, 0, 5, true⟩])])] 1 1
    RFKind.featureBased (fun _ _ _ => 2) (fun _ _ x => if x = 1 then 50 else 2)
    (fun _ => 3) (fun x => if x = 1 then 99 else 3)
    (fun _ => 4) (fun x => if x = 1 then 88 else 4)
    (by decide)
  refine ⟨?_, ?_, ?_⟩
  · exact h.1 [(0, [(0, [⟨1, 1, 0, true⟩])])] rfl (0, 0, ⟨1, 1, 0, true⟩)
      (by decide) rfl
  · exact h.2.1
      ((get_reward_matrix [(0, [(0, [⟨1, 0, 5, true⟩])])] 1 1 true true
        RFKind.featureBased (fun _ _ _ => 2) (fun _ => 3)
        (fun _ => 4)).toOption.getD ((fun _ _ => 0), [])).1
      ((get_reward_matrix [(0, [(0, [⟨1, 0, 5, true⟩])])] 1 1 true true
        RFKind.featureBased (fun _ _ _ => 2) (fun _ => 3)
        (fun _ => 4)).toOption.getD ((fun _ _ => 0), [])).2
      rfl 0
  · exact h.2.2 (fun s a x hx => by simp [hx]) (fun x hx => by simp [hx])
      (fun x hx => by simp [hx])

/-- Claim C9 witness: the mutation characterization applied to a one-state
terminal environment with a constant reward oracle. -/
theorem reward_matrix_mutates_P_witness :
    ((get_reward_matrix [(0, [(0, [⟨1, 0, 5, true⟩])])] 1 1 true true
        RFKind.featureBased (fun _ _ _ => 7) (fun _ => 3)
        (fun _ => 4)).toOption.getD ((fun _ _ => 0), [])).2 =
      rewireTerminal 2 (recompute1 (fun _ _ _ => 7)
        [(0, [(0, [⟨1, 0, 5, true⟩])])]) :=
  (reward_matrix_mutates_P [(0, [(0, [⟨1, 0, 5, true⟩])])] 1 1
    RFKind.featureBased (fun _ _ _ => 7) (fun _ => 3) (fun _ => 4)
    ((get_reward_matrix [(0, [(0, [⟨1, 0, 5, true⟩])])] 1 1 true true
        RFKind.featureBased (fun _ _ _ => 7) (fun _ => 3)
        (fun _ => 4)).toOption.getD ((fun _ _ => 0), [])).1
    ((get_reward_matrix [(0, [(0, [⟨1, 0, 5, true⟩])])] 1 1 true true
        RFKind.featureBased (fun _ _ _ => 7) (fun _ => 3)
        (fun _ => 4)).toOption.getD ((fun _ _ => 0), [])).2
    rfl).1

/-- Pointwise assignment d[i] = x on a dense numpy vector. -/
def updateAt (d : ℕ → ℚ) (i : ℕ) (x : ℚ) : ℕ → ℚ :=
  fun j => if j = i then x else d j

/-- The innermost loop of occupancy_measure: for next_state in
range(m), d[next_state] += g next_state. -/
def addInto (g : ℕ → ℚ) (m : ℕ) (d : ℕ → ℚ) : ℕ → ℚ :=
  (List.range m).foldl (fun d ns => updateAt d ns (d ns + g ns)) d

/-- One sweep of occupancy_measure (mce_irl.py lines 69-78): the
working accumulator starts as a copy of P0 and, for every state,
action and next state, gamma * d_prev[state] * policy[state, action] *
T[state, action, next_state] is accumulated into d[next_state]. -/
def sweep (nS nA : ℕ) (T : Tensor) (policy : ℕ → ℕ → ℚ) (γ : ℚ)
    (P0 d_prev : ℕ → ℚ) : ℕ → ℚ :=
  (List.range nS).foldl (fun d state =>
    (List.range nA).foldl (fun d action =>
      addInto (fun ns => γ * d_prev state * policy state action *
        T state action ns) nS d) d) P0

/-- np.amax(abs(d_prev - d)) over the nS entries of the vectors. -/
def maxAbsDiff (nS : ℕ) (u v : ℕ → ℚ) : ℚ :=
  (List.range nS).foldl (fun m s => max m |u s - v s|) 0

/-- The while loop of occupancy_measure (mce_irl.py lines 63-87),
indexed by fuel since the loop need not terminate; none is returned if
the fuel runs out. diff starts at infinity, so the loop body always
runs at least once; after each sweep the iteration counter is
incremented and compared with the cap (when a cap is given) before the
diff is compared with the threshold. -/
def occLoop (nS nA : ℕ) (T : Tensor) (policy : ℕ → ℕ → ℚ)
    (γ threshold : ℚ) (P0 : ℕ → ℚ) (tm : Option ℕ) :
    ℕ → (ℕ → ℚ) → ℕ → Option (ℕ → ℚ)
  | _, _, 0 => none
  | t, d_prev, fuel + 1 =>
    let d := sweep nS nA T policy γ P0 d_prev
    let diff := maxAbsDiff nS d_prev d
    match tm with
    | some m =>
      if t + 1 = m then some d
      else if diff ≤ threshold then some d
      else occLoop nS nA T policy γ threshold P0 tm (t + 1) d fuel
    | none =>
      if diff ≤ threshold then some d
      else occLoop nS nA T policy γ threshold P0 tm t d fuel

/-- occupancy_measure of mce_irl.py: d_prev starts as the zero vector
and the counter at 0. The P0 = None default (uniform distribution) is
not modelled; P0 is always supplied by the claims considered here. -/
def occupancy_measure (nS nA : ℕ) (T : Tensor) (policy : ℕ → ℕ → ℚ)
    (γ : ℚ) (P0 : ℕ → ℚ) (tm : Option ℕ) (threshold : ℚ) (fuel : ℕ) :
    Option (ℕ → ℚ) :=
  occLoop nS nA T policy γ threshold P0 tm 0 (fun _ => 0) fuel

theorem addInto_apply (g : ℕ → ℚ) : ∀ (m : ℕ) (d : ℕ → ℚ) (j : ℕ),
    addInto g m d j = d j + if j < m then g j else 0 := by
  intro m
  induction m with
  | zero =>
    intro d j
    simp [addInto]
  | succ m ih =>
    intro d j
    have hstep : addInto g (m + 1) d =
        updateAt (addInto g m d) m ((addInto g m d) m + g m) := by
      unfold addInto
      rw [List.range_succ, List.foldl_append]
      simp
    rw [hstep]
    unfold updateAt
    by_cases hj : j = m
    · subst hj
      rw [if_pos rfl, ih d j, if_neg (lt_irrefl j), add_zero,
        if_pos (Nat.lt_succ_self j)]
    · rw [if_neg hj, ih d j]
      by_cases hjm : j < m
      · rw [if_pos hjm, if_pos (Nat.lt_succ_of_lt hjm)]
      · rw [if_neg hjm, if_neg (fun hlt =>
          hjm (Nat.lt_of_le_of_ne (Nat.lt_succ_iff.mp hlt) hj))]

theorem foldl_pointwise_add (nS : ℕ) (F : (ℕ → ℚ) → ℕ → (ℕ → ℚ))
    (H : ℕ → ℕ → ℚ)
    (hF : ∀ d s j, F d s j = d j + if j < nS then H s j else 0) :
    ∀ (k : ℕ) (d : ℕ → ℚ) (j : ℕ),
    ((List.range k).foldl F d) j =
      d j + if j < nS then ∑ s ∈ Finset.range k, H s j else 0 := by
  intro k
  induction k with
  | zero =>
    intro d j
    simp
  | succ k ih =>
    intro d j
    rw [List.range_succ, List.foldl_append]
    simp only [List.foldl_cons, List.foldl_nil]
    rw [hF, ih d j, Finset.sum_range_succ]
    by_cases hj : j < nS
    · rw [if_pos hj, if_pos hj, if_pos hj, add_assoc]
    · simp only [if_neg hj, add_zero]

/-- Closed form of one sweep. -/
theorem sweep_apply (nS nA : ℕ) (T : Tensor) (policy : ℕ → ℕ → ℚ)
    (γ : ℚ) (P0 d_prev : ℕ → ℚ) (j : ℕ) :
    sweep nS nA T policy γ P0 d_prev j =
      P0 j + if j < nS then
        ∑ s ∈ Finset.range nS, ∑ a ∈ Finset.range nA,
          γ * d_prev s * policy s a * T s a j
      else 0 := by
  unfold sweep
  rw [foldl_pointwise_add nS _
    (fun s j => ∑ a ∈ Finset.range nA,
      γ * d_prev s * policy s a * T s a j) ?_ nS P0 j]
  intro d s j2
  rw [foldl_pointwise_add nS _
    (fun a j => γ * d_prev s * policy s a * T s a j) ?_ nA d j2]
  intro d2 a j3
  rw [addInto_apply]

theorem sweep_zero_dprev (nS nA : ℕ) (T : Tensor) (policy : ℕ → ℕ → ℚ)
    (γ : ℚ) (P0 : ℕ → ℚ) :
    sweep nS nA T policy γ P0 (fun _ => 0) = P0 := by
  funext j
  rw [sweep_apply]
  simp

/-- Claim C4: each sweep computes, for every s' in range, d_new[s'] = P0[s'] +
gamma * sum over states s and actions a of d_prev[s] * policy[s,a] *
T[s,a,s']; occupancy_measure initializes d_prev to the all-zero vector
(not P0) while the working accumulator of each sweep is seeded with P0;
and, absent a cap, the loop returns immediately after a sweep whose
maximum absolute componentwise difference from the previous iterate is
at most the threshold, and recurses otherwise. -/
theorem occupancy_sweep_characterization (nS nA : ℕ) (T : Tensor)
    (policy : ℕ → ℕ → ℚ) (γ threshold : ℚ) (P0 d_prev : ℕ → ℚ)
    (t fuel : ℕ) (s' : ℕ) (hs' : s' < nS) :
    (sweep nS nA T policy γ P0 d_prev s' =
      P0 s' + γ * ∑ s ∈ Finset.range nS, ∑ a ∈ Finset.range nA,
        d_prev s * policy s a * T s a s') ∧
    (occupancy_measure nS nA T policy γ P0 none threshold fuel =
      occLoop nS nA T policy γ threshold P0 none 0 (fun _ => 0) fuel) ∧
    (maxAbsDiff nS d_prev (sweep nS nA T policy γ P0 d_prev) ≤ threshold →
      occLoop nS nA T policy γ threshold P0 none t d_prev (fuel + 1) =
        some (sweep nS nA T policy γ P0 d_prev)) ∧
    (¬maxAbsDiff nS d_prev (sweep nS nA T policy γ P0 d_prev) ≤ threshold →
      occLoop nS nA T policy γ threshold P0 none t d_prev (fuel + 1) =
        occLoop nS nA T policy γ threshold P0 none t
          (sweep nS nA T policy γ P0 d_prev) fuel) := by
  refine ⟨?_, rfl, ?_, ?_⟩
  · rw [sweep_apply, if_pos hs']
    congr 1
    rw [Finset.mul_sum]
    apply Finset.sum_congr rfl
    intro s _
    rw [Finset.mul_sum]
    apply Finset.sum_congr rfl
    intro a _
    ring
  · intro hstop
    show (if maxAbsDiff nS d_prev (sweep nS nA T policy γ P0 d_prev) ≤ threshold
      then some (sweep nS nA T policy γ P0 d_prev)
      else occLoop nS nA T policy γ threshold P0 none t
        (sweep nS nA T policy γ P0 d_prev) fuel) = _
    rw [if_pos hstop]
  · intro hgo
    show (if maxAbsDiff nS d_prev (sweep nS nA T policy γ P0 d_prev) ≤ threshold
      then some (sweep nS nA T policy γ P0 d_prev)
      else occLoop nS nA T policy γ threshold P0 none t
        (sweep nS nA T policy γ P0 d_prev) fuel) = _
    rw [if_neg hgo]

/-- Without a cap the loop never reads the iteration counter. -/
theorem occLoop_none_t_irrel (nS nA : ℕ) (T : Tensor)
    (policy : ℕ → ℕ → ℚ) (γ threshold : ℚ) (P0 : ℕ → ℚ) :
    ∀ (fuel t t' : ℕ) (d_prev : ℕ → ℚ),
    occLoop nS nA T policy γ threshold P0 none t d_prev fuel =
    occLoop nS nA T policy γ threshold P0 none t' d_prev fuel := by
  intro fuel
  induction fuel with
  | zero => intro t t' d; rfl
  | succ fuel ih =>
    intro t t' d_prev
    show (if maxAbsDiff nS d_prev (sweep nS nA T policy γ P0 d_prev) ≤ threshold
      then some (sweep nS nA T policy γ P0 d_prev)
      else occLoop nS nA T policy γ threshold P0 none t
        (sweep nS nA T policy γ P0 d_prev) fuel) =
      (if maxAbsDiff nS d_prev (sweep nS nA T policy γ P0 d_prev) ≤ threshold
      then some (sweep nS nA T policy γ P0 d_prev)
      else occLoop nS nA T policy γ threshold P0 none t'
        (sweep nS nA T policy γ P0 d_prev) fuel)
    by_cases hc : maxAbsDiff nS d_prev (sweep nS nA T policy γ P0 d_prev) ≤ threshold
    · rw [if_pos hc, if_pos hc]
    · rw [if_neg hc, if_neg hc]
      exact ih t t' _

/-- Claim C2 (amended): with the iteration cap set to 1, occupancy_measure
performs exactly one sweep and returns P0 for every positive fuel; with
the cap set to 0 the counter, incremented before comparison, never
reaches the cap, so the loop behaves exactly as the uncapped loop and
does not in general return P0. -/
theorem occupancy_cap_one_returns_P0 (nS nA : ℕ) (T : Tensor)
    (policy : ℕ → ℕ → ℚ) (γ threshold : ℚ) (P0 : ℕ → ℚ) (fuel : ℕ) :
    (occupancy_measure nS nA T policy γ P0 (some 1) threshold (fuel + 1) =
      some P0) ∧
    (∀ t d_prev fuel2,
      occLoop nS nA T policy γ threshold P0 (some 0) t d_prev fuel2 =
      occLoop nS nA T policy γ threshold P0 none t d_prev fuel2) := by
  constructor
  · show some (sweep nS nA T policy γ P0 (fun _ => 0)) = some P0
    rw [sweep_zero_dprev]
  · intro t d_prev fuel2
    induction fuel2 generalizing t d_prev with
    | zero => rfl
    | succ fuel2 ih =>
      show (if t + 1 = 0 then some (sweep nS nA T policy γ P0 d_prev) else
        if maxAbsDiff nS d_prev (sweep nS nA T policy γ P0 d_prev) ≤ threshold
        then some (sweep nS nA T policy γ P0 d_prev)
        else occLoop nS nA T policy γ threshold P0 (some 0) (t + 1)
          (sweep nS nA T policy γ P0 d_prev) fuel2) = _
      rw [if_neg (Nat.succ_ne_zero t), ih]
      show _ = (if maxAbsDiff nS d_prev (sweep nS nA T policy γ P0 d_prev) ≤ threshold
        then some (sweep nS nA T policy γ P0 d_prev)
        else occLoop nS nA T policy γ threshold P0 none t
          (sweep nS nA T policy γ P0 d_prev) fuel2)
      by_cases hc : maxAbsDiff nS d_prev (sweep nS nA T policy γ P0 d_prev) ≤ threshold
      · rw [if_pos hc, if_pos hc]
      · rw [if_neg hc, if_neg hc]
        exact occLoop_none_t_irrel nS nA T policy γ threshold P0 fuel2 (t + 1) t _

/-- Claim C2 counterexample: with the iteration cap set to 0 the loop runs to
the convergence threshold instead of stopping immediately, and on a
one-state chain with gamma 1/2 and threshold 1/2 it returns 3/2, not
P0 = 1. -/
theorem occupancy_cap_zero_not_P0 :
    Option.map (fun d => d 0)
      (occupancy_measure 1 1 (fun _ _ _ => 1) (fun _ _ => 1) (1/2)
        (fun _ => 1) (some 0) (1/2) 2) ≠ some 1 := by
  have hs1 : sweep 1 1 (fun _ _ _ => 1) (fun _ _ => 1) (1/2) (fun _ => 1)
      (fun _ => 0) = fun _ => (1 : ℚ) := by
    funext j
    rw [sweep_apply]
    by_cases hj : j < 1 <;> simp [hj]
  have hs2 : sweep 1 1 (fun _ _ _ => 1) (fun _ _ => 1) (1/2) (fun _ => 1)
      (fun _ => (1 : ℚ)) = fun j => if j < 1 then 3/2 else 1 := by
    funext j
    rw [sweep_apply]
    by_cases hj : j < 1
    · rw [if_pos hj, if_pos hj]
      norm_num
    · rw [if_neg hj, if_neg hj]
      norm_num
  have hd1 : maxAbsDiff 1 (fun _ => (0 : ℚ)) (fun _ => (1 : ℚ)) = 1 := by
    norm_num [maxAbsDiff, show List.range 1 = [0] from rfl]
  have hd2 : maxAbsDiff 1 (fun _ => (1 : ℚ))
      (fun j => if j < 1 then (3/2 : ℚ) else 1) = 1/2 := by
    norm_num [maxAbsDiff, show List.range 1 = [0] from rfl]
  have e1 : occupancy_measure 1 1 (fun _ _ _ => 1) (fun _ _ => 1) (1/2)
      (fun _ => 1) (some 0) (1/2) 2 =
      (if maxAbsDiff 1 (fun _ => 0) (sweep 1 1 (fun _ _ _ => 1) (fun _ _ => 1)
          (1/2) (fun _ => 1) (fun _ => 0)) ≤ 1/2
        then some (sweep 1 1 (fun _ _ _ => 1) (fun _ _ => 1) (1/2)
          (fun _ => 1) (fun _ => 0))
        else occLoop 1 1 (fun _ _ _ => 1) (fun _ _ => 1) (1/2) (1/2)
          (fun _ => 1) (some 0) 1
          (sweep 1 1 (fun _ _ _ => 1) (fun _ _ => 1) (1/2)
            (fun _ => 1) (fun _ => 0)) 1) := rfl
  rw [e1, hs1, hd1, if_neg (by norm_num : ¬((1 : ℚ) ≤ 1/2))]
  have e2 : occLoop 1 1 (fun _ _ _ => 1) (fun _ _ => 1) (1/2) (1/2)
      (fun _ => 1) (some 0) 1 (fun _ => (1 : ℚ)) 1 =
      (if maxAbsDiff 1 (fun _ => (1 : ℚ)) (sweep 1 1 (fun _ _ _ => 1)
          (fun _ _ => 1) (1/2) (fun _ => 1) (fun _ => (1 : ℚ))) ≤ 1/2
        then some (sweep 1 1 (fun _ _ _ => 1) (fun _ _ => 1) (1/2)
          (fun _ => 1) (fun _ => (1 : ℚ)))
        else occLoop 1 1 (fun _ _ _ => 1) (fun _ _ => 1) (1/2) (1/2)
          (fun _ => 1) (some 0) 2
          (sweep 1 1 (fun _ _ _ => 1) (fun _ _ => 1) (1/2)
            (fun _ => 1) (fun _ => (1 : ℚ))) 0) := rfl
  rw [e2, hs2, hd2, if_pos (by norm_num : (1/2 : ℚ) ≤ 1/2)]
  simp
  norm_num

/-- Claim C4 witness: the sweep formula, initialization and both stopping
behaviors on the one-state chain with gamma 1/2, instantiated at the
thresholds 1 (stop) and 1/2 (continue). -/
theorem occupancy_sweep_characterization_witness :
    (sweep 1 1 (fun _ _ _ => 1) (fun _ _ => 1) (1/2) (fun _ => 1)
        (fun _ => 0) 0 =
      (1 : ℚ) + (1/2) * ∑ s ∈ Finset.range 1, ∑ a ∈ Finset.range 1,
        (0 : ℚ) * 1 * 1) ∧
    (occupancy_measure 1 1 (fun _ _ _ => 1) (fun _ _ => 1) (1/2)
        (fun _ => 1) none 1 3 =
      occLoop 1 1 (fun _ _ _ => 1) (fun _ _ => 1) (1/2) 1 (fun _ => 1)
        none 0 (fun _ => 0) 3) ∧
    (occLoop 1 1 (fun _ _ _ => 1) (fun _ _ => 1) (1/2) 1 (fun _ => 1)
        none 0 (fun _ => 0) 1 =
      some (sweep 1 1 (fun _ _ _ => 1) (fun _ _ => 1) (1/2) (fun _ => 1)
        (fun _ => 0))) ∧
    (occLoop 1 1 (fun _ _ _ => 1) (fun _ _ => 1) (1/2) (1/2) (fun _ => 1)
        none 0 (fun _ => 0) 1 =
      occLoop 1 1 (fun _ _ _ => 1) (fun _ _ => 1) (1/2) (1/2) (fun _ => 1)
        none 0 (sweep 1 1 (fun _ _ _ => 1) (fun _ _ => 1) (1/2)
          (fun _ => 1) (fun _ => 0)) 0) := by
  have hs1 : sweep 1 1 (fun _ _ _ => 1) (fun _ _ => 1) (1/2) (fun _ => 1)
      (fun _ => 0) = fun _ => (1 : ℚ) := by
    funext j
    rw [sweep_apply]
    by_cases hj : j < 1 <;> simp [hj]
  have hd1 : maxAbsDiff 1 (fun _ => (0 : ℚ)) (fun _ => (1 : ℚ)) = 1 := by
    norm_num [maxAbsDiff, show List.range 1 = [0] from rfl]
  refine ⟨(occupancy_sweep_characterization 1 1 (fun _ _ _ => 1)
      (fun _ _ => 1) (1/2) 1 (fun _ => 1) (fun _ => 0) 0 0 0
      (by norm_num)).1, rfl, ?_, ?_⟩
  · exact (occupancy_sweep_characterization 1 1 (fun _ _ _ => 1)
      (fun _ _ => 1) (1/2) 1 (fun _ => 1) (fun _ => 0) 0 0 0
      (by norm_num)).2.2.1 (by rw [hs1, hd1])
  · exact (occupancy_sweep_characterization 1 1 (fun _ _ _ => 1)
      (fun _ _ => 1) (1/2) (1/2) (fun _ => 1) (fun _ => 0) 0 0 0
      (by norm_num)).2.2.2 (by rw [hs1, hd1]; norm_num)

/-- Mass balance of one sweep: with row-stochastic T, per-state
stochastic policy and P0 summing to 1, the sweep result sums to
1 + gamma times the previous total mass. -/
theorem sum_sweep (nS nA : ℕ) (T : Tensor) (policy : ℕ → ℕ → ℚ) (γ : ℚ)
    (P0 d : ℕ → ℚ)
    (hT : ∀ s < nS, ∀ a < nA, ∑ x ∈ Finset.range nS, T s a x = 1)
    (hpol : ∀ s < nS, ∑ a ∈ Finset.range nA, policy s a = 1)
    (hP0 : ∑ s ∈ Finset.range nS, P0 s = 1) :
    ∑ j ∈ Finset.range nS, sweep nS nA T policy γ P0 d j =
      1 + γ * ∑ s ∈ Finset.range nS, d s := by
  have hs : ∀ j ∈ Finset.range nS, sweep nS nA T policy γ P0 d j =
      P0 j + ∑ s ∈ Finset.range nS, ∑ a ∈ Finset.range nA,
        γ * d s * policy s a * T s a j := by
    intro j hj
    rw [sweep_apply, if_pos (Finset.mem_range.mp hj)]
  rw [Finset.sum_congr rfl hs, Finset.sum_add_distrib, hP0]
  congr 1
  rw [Finset.sum_comm]
  have hterm : ∀ s ∈ Finset.range nS,
      (∑ j ∈ Finset.range nS, ∑ a ∈ Finset.range nA,
        γ * d s * policy s a * T s a j) = γ * d s := by
    intro s hsmem
    rw [Finset.sum_comm]
    have hinner : ∀ a ∈ Finset.range nA,
        (∑ j ∈ Finset.range nS, γ * d s * policy s a * T s a j) =
        γ * d s * policy s a := by
      intro a hamem
      rw [← Finset.mul_sum,
        hT s (Finset.mem_range.mp hsmem) a (Finset.mem_range.mp hamem),
        mul_one]
    rw [Finset.sum_congr rfl hinner, ← Finset.mul_sum,
      hpol s (Finset.mem_range.mp hsmem), mul_one]
  rw [Finset.sum_congr rfl hterm, ← Finset.mul_sum]

/-- Invariant: every value returned by the loop keeps the total mass
below 1 / (1 - gamma). -/
theorem occLoop_sum_bound (nS nA : ℕ) (T : Tensor) (policy : ℕ → ℕ → ℚ)
    (γ threshold : ℚ) (P0 : ℕ → ℚ) (tm : Option ℕ)
    (hγ0 : 0 ≤ γ) (hγ1 : γ < 1)
    (hT : ∀ s < nS, ∀ a < nA, ∑ x ∈ Finset.range nS, T s a x = 1)
    (hpol : ∀ s < nS, ∑ a ∈ Finset.range nA, policy s a = 1)
    (hP0 : ∑ s ∈ Finset.range nS, P0 s = 1) :
    ∀ (fuel t : ℕ) (d0 : ℕ → ℚ),
    (∑ s ∈ Finset.range nS, d0 s) ≤ 1 / (1 - γ) →
    ∀ dres, occLoop nS nA T policy γ threshold P0 tm t d0 fuel = some dres →
    ∑ s ∈ Finset.range nS, dres s ≤ 1 / (1 - γ) := by
  intro fuel
  induction fuel with
  | zero =>
    intro t d0 _ dres h
    exact Option.noConfusion h
  | succ fuel ih =>
    intro t d0 hd0 dres h
    have h1γ : 0 < 1 - γ := by linarith
    have hstep : ∑ s ∈ Finset.range nS,
        sweep nS nA T policy γ P0 d0 s ≤ 1 / (1 - γ) := by
      rw [sum_sweep nS nA T policy γ P0 d0 hT hpol hP0]
      have hmul : γ * ∑ s ∈ Finset.range nS, d0 s ≤ γ * (1 / (1 - γ)) :=
        mul_le_mul_of_nonneg_left hd0 hγ0
      have heq : 1 + γ * (1 / (1 - γ)) = 1 / (1 - γ) := by
        field_simp
      linarith
    cases tm with
    | none =>
      have h' : (if maxAbsDiff nS d0 (sweep nS nA T policy γ P0 d0) ≤ threshold
          then some (sweep nS nA T policy γ P0 d0)
          else occLoop nS nA T policy γ threshold P0 none t
            (sweep nS nA T policy γ P0 d0) fuel) = some dres := h
      by_cases hc : maxAbsDiff nS d0 (sweep nS nA T policy γ P0 d0) ≤ threshold
      · rw [if_pos hc] at h'
        have := Option.some.inj h'
        subst this
        exact hstep
      · rw [if_neg hc] at h'
        exact ih t _ hstep dres h'
    | some m =>
      have h' : (if t + 1 = m then some (sweep nS nA T policy γ P0 d0)
          else if maxAbsDiff nS d0 (sweep nS nA T policy γ P0 d0) ≤ threshold
          then some (sweep nS nA T policy γ P0 d0)
          else occLoop nS nA T policy γ threshold P0 (some m) (t + 1)
            (sweep nS nA T policy γ P0 d0) fuel) = some dres := h
      by_cases hc1 : t + 1 = m
      · rw [if_pos hc1] at h'
        have := Option.some.inj h'
        subst this
        exact hstep
      · rw [if_neg hc1] at h'
        by_cases hc2 : maxAbsDiff nS d0 (sweep nS nA T policy γ P0 d0) ≤ threshold
        · rw [if_pos hc2] at h'
          have := Option.some.inj h'
          subst this
          exact hstep
        · rw [if_neg hc2] at h'
          exact ih (t + 1) _ hstep dres h'

/-- Claim C7: for 0 ≤ gamma < 1, a row-stochastic transition tensor, a
per-state stochastic policy and an initial distribution summing to 1,
every vector returned by occupancy_measure has total mass at most
1 / (1 - gamma). -/
theorem occupancy_sum_bounded (nS nA : ℕ) (T : Tensor)
    (policy : ℕ → ℕ → ℚ) (γ threshold : ℚ) (P0 : ℕ → ℚ) (tm : Option ℕ)
    (fuel : ℕ) (dres : ℕ → ℚ)
    (hγ0 : 0 ≤ γ) (hγ1 : γ < 1)
    (hT : ∀ s < nS, ∀ a < nA, ∑ x ∈ Finset.range nS, T s a x = 1)
    (hpol : ∀ s < nS, ∑ a ∈ Finset.range nA, policy s a = 1)
    (hP0 : ∑ s ∈ Finset.range nS, P0 s = 1)
    (h : occupancy_measure nS nA T policy γ P0 tm threshold fuel =
      some dres) :
    ∑ s ∈ Finset.range nS, dres s ≤ 1 / (1 - γ) := by
  have h0 : (∑ s ∈ Finset.range nS, (fun _ => (0 : ℚ)) s) ≤ 1 / (1 - γ) := by
    have h1γ : 0 < 1 - γ := by linarith
    have hnn : (0 : ℚ) ≤ 1 / (1 - γ) := div_nonneg zero_le_one h1γ.le
    simpa using hnn
  exact occLoop_sum_bound nS nA T policy γ threshold P0 tm hγ0 hγ1 hT hpol
    hP0 fuel 0 _ h0 dres h

/-- Claim C7 witness: the bound applied to the one-state chain with gamma 1/2
and a one-iteration cap, whose returned occupancy sums to 1 and the
bound is 2. -/
theorem occupancy_sum_bounded_witness :
    ∑ s ∈ Finset.range 1,
      sweep 1 1 (fun _ _ _ => 1) (fun _ _ => 1) (1/2) (fun _ => 1)
        (fun _ => 0) s ≤ 1 / (1 - 1/2) := by
  refine occupancy_sum_bounded 1 1 (fun _ _ _ => 1) (fun _ _ => 1) (1/2)
    (1/1000000) (fun _ => 1) (some 1) 1
    (sweep 1 1 (fun _ _ _ => 1) (fun _ _ => 1) (1/2) (fun _ => 1)
      (fun _ => 0))
    (by norm_num) (by norm_num) ?_ ?_ ?_ rfl
  · intro s hs a ha
    interval_cases s <;> interval_cases a <;>
      norm_num [show List.range 1 = [0] from rfl]
  · intro s hs
    interval_cases s <;> norm_num [show List.range 1 = [0] from rfl]
  · norm_num [show List.range 1 = [0] from rfl]

/-- An expert trajectory: the visited states and the taken actions. -/
structure Traj where
  states : List ℕ
  actions : List ℕ
  deriving DecidableEq

/-- Body of the trajectory loop of sa_visitations (mce_irl.py lines
35-43): increment s0_count at the first state of the trajectory, then,
for every timestep of the action sequence, increment sa_visit_count at
(states[timestep], actions[timestep]). -/
def countTraj (acc : (ℕ → ℚ) × (ℕ → ℕ → ℚ)) (traj : Traj) :
    (ℕ → ℚ) × (ℕ → ℕ → ℚ) :=
  let s0 := updateAt acc.1 (traj.states.getD 0 0)
    (acc.1 (traj.states.getD 0 0) + 1)
  let sa := (List.range traj.actions.length).foldl (fun sa timestep =>
    fun s a => if s = traj.states.getD timestep 0 ∧
        a = traj.actions.getD timestep 0
      then sa s a + 1 else sa s a) acc.2
  (s0, sa)

/-- sa_visitations of mce_irl.py: returns the raw state-action
visitation counts and the empirical initial distribution P0 =
s0_count / number of trajectories. -/
def sa_visitations (nS nA : ℕ) (trajs : List Traj) :
    (ℕ → ℕ → ℚ) × (ℕ → ℚ) :=
  let counts := trajs.foldl countTraj (fun _ => 0, fun _ _ => 0)
  (counts.2, fun s => counts.1 s / (trajs.length : ℚ))

theorem sum_inc_vec (nS i : ℕ) (c : ℕ → ℚ) (hi : i < nS) :
    ∑ s ∈ Finset.range nS, updateAt c i (c i + 1) s =
    (∑ s ∈ Finset.range nS, c s) + 1 := by
  have hpt : ∀ s : ℕ, updateAt c i (c i + 1) s =
      c s + if s = i then 1 else 0 := by
    intro s
    unfold updateAt
    by_cases hs : s = i
    · subst hs
      rw [if_pos rfl, if_pos rfl]
    · rw [if_neg hs, if_neg hs, add_zero]
  simp only [hpt]
  rw [Finset.sum_add_distrib,
    Finset.sum_ite_eq' (Finset.range nS) i (fun _ => (1 : ℚ)),
    if_pos (Finset.mem_range.mpr hi)]

theorem sum_inc_matrix (nS nA σ α : ℕ) (m : ℕ → ℕ → ℚ)
    (hσ : σ < nS) (hα : α < nA) :
    ∑ s ∈ Finset.range nS, ∑ a ∈ Finset.range nA,
      (if s = σ ∧ a = α then m s a + 1 else m s a) =
    (∑ s ∈ Finset.range nS, ∑ a ∈ Finset.range nA, m s a) + 1 := by
  have hpt : ∀ s a : ℕ, (if s = σ ∧ a = α then m s a + 1 else m s a) =
      m s a + if s = σ ∧ a = α then 1 else 0 := by
    intro s a
    by_cases h : s = σ ∧ a = α
    · rw [if_pos h, if_pos h]
    · rw [if_neg h, if_neg h, add_zero]
  simp only [hpt]
  have hsplit : ∀ s : ℕ,
      (∑ a ∈ Finset.range nA, (m s a + if s = σ ∧ a = α then (1 : ℚ) else 0)) =
      (∑ a ∈ Finset.range nA, m s a) + if s = σ then 1 else 0 := by
    intro s
    rw [Finset.sum_add_distrib]
    congr 1
    by_cases hs : s = σ
    · subst hs
      rw [if_pos rfl]
      simp only [eq_self_iff_true, true_and]
      rw [Finset.sum_ite_eq' (Finset.range nA) α (fun _ => (1 : ℚ)),
        if_pos (Finset.mem_range.mpr hα)]
    · rw [if_neg hs]
      have hz : ∀ a : ℕ, (if s = σ ∧ a = α then (1 : ℚ) else 0) = 0 := by
        intro a
        rw [if_neg (fun hx => hs hx.1)]
      simp only [hz]
      exact Finset.sum_const_zero
  simp only [hsplit]
  rw [Finset.sum_add_distrib,
    Finset.sum_ite_eq' (Finset.range nS) σ (fun _ => (1 : ℚ)),
    if_pos (Finset.mem_range.mpr hσ)]

theorem sum_sa_inner (nS nA : ℕ) (states actions : List ℕ) :
    ∀ (k : ℕ) (m : ℕ → ℕ → ℚ),
    (∀ t < k, states.getD t 0 < nS ∧ actions.getD t 0 < nA) →
    ∑ s ∈ Finset.range nS, ∑ a ∈ Finset.range nA,
      ((List.range k).foldl (fun sa timestep =>
        fun s a => if s = states.getD timestep 0 ∧
            a = actions.getD timestep 0
          then sa s a + 1 else sa s a) m) s a =
    (∑ s ∈ Finset.range nS, ∑ a ∈ Finset.range nA, m s a) + k := by
  intro k
  induction k with
  | zero =>
    intro m _
    simp
  | succ k ih =>
    intro m hb
    rw [List.range_succ, List.foldl_append]
    simp only [List.foldl_cons, List.foldl_nil]
    rw [sum_inc_matrix nS nA (states.getD k 0) (actions.getD k 0) _
      (hb k (Nat.lt_succ_self k)).1 (hb k (Nat.lt_succ_self k)).2,
      ih m (fun t ht => hb t (Nat.lt_succ_of_lt ht))]
    push_cast
    ring

theorem countTraj_fold_sums (nS nA : ℕ) :
    ∀ (trajs : List Traj) (acc : (ℕ → ℚ) × (ℕ → ℕ → ℚ)),
    (∀ traj ∈ trajs, traj.states.getD 0 0 < nS ∧
      ∀ t < traj.actions.length, traj.states.getD t 0 < nS ∧
        traj.actions.getD t 0 < nA) →
    (∑ s ∈ Finset.range nS, (trajs.foldl countTraj acc).1 s =
      (∑ s ∈ Finset.range nS, acc.1 s) + trajs.length) ∧
    (∑ s ∈ Finset.range nS, ∑ a ∈ Finset.range nA,
        (trajs.foldl countTraj acc).2 s a =
      (∑ s ∈ Finset.range nS, ∑ a ∈ Finset.range nA, acc.2 s a) +
        (trajs.map (fun tr => (tr.actions.length : ℚ))).sum) := by
  intro trajs
  induction trajs with
  | nil =>
    intro acc _
    constructor
    · simp
    · simp
  | cons hd tl ih =>
    intro acc hv
    have hhd := hv hd (List.mem_cons_self _ _)
    have htl := ih (countTraj acc hd)
      (fun tr htr => hv tr (List.mem_cons_of_mem _ htr))
    constructor
    · rw [List.foldl_cons, htl.1]
      show (∑ s ∈ Finset.range nS,
        updateAt acc.1 (hd.states.getD 0 0)
          (acc.1 (hd.states.getD 0 0) + 1) s) + _ = _
      rw [sum_inc_vec nS (hd.states.getD 0 0) acc.1 hhd.1]
      simp only [List.length_cons]
      push_cast
      ring
    · rw [List.foldl_cons, htl.2]
      show (∑ s ∈ Finset.range nS, ∑ a ∈ Finset.range nA,
        ((List.range hd.actions.length).foldl (fun sa timestep =>
          fun s a => if s = hd.states.getD timestep 0 ∧
              a = hd.actions.getD timestep 0
            then sa s a + 1 else sa s a) acc.2) s a) + _ = _
      rw [sum_sa_inner nS nA hd.states hd.actions hd.actions.length acc.2
        hhd.2]
      simp only [List.map_cons, List.sum_cons]
      ring

/-- Claim C6: for a nonempty dataset of expert trajectories whose states and
actions are in range, the entries of P0 sum to 1 and the entries of the
raw (unnormalized) visit counts sum to the total number of
(state, action) timesteps, i.e. the sum of the action-sequence lengths
over the trajectories. -/
theorem sa_visitations_sums (nS nA : ℕ) (trajs : List Traj)
    (hne : trajs ≠ [])
    (hvalid : ∀ traj ∈ trajs, traj.states.getD 0 0 < nS ∧
      ∀ t < traj.actions.length, traj.states.getD t 0 < nS ∧
        traj.actions.getD t 0 < nA) :
    (∑ s ∈ Finset.range nS, (sa_visitations nS nA trajs).2 s = 1) ∧
    (∑ s ∈ Finset.range nS, ∑ a ∈ Finset.range nA,
      (sa_visitations nS nA trajs).1 s a =
      (trajs.map (fun tr => (tr.actions.length : ℚ))).sum) := by
  have hfold := countTraj_fold_sums nS nA trajs
    (fun _ => 0, fun _ _ => 0) hvalid
  have hlen : ((trajs.length : ℚ)) ≠ 0 := by
    have : trajs.length ≠ 0 := fun hz => hne (List.length_eq_zero.mp hz)
    exact_mod_cast this
  constructor
  · show ∑ s ∈ Finset.range nS,
      (trajs.foldl countTraj (fun _ => 0, fun _ _ => 0)).1 s /
        (trajs.length : ℚ) = 1
    rw [← Finset.sum_div]
    rw [hfold.1]
    simp only [Finset.sum_const_zero, zero_add]
    exact div_self hlen
  · have h2 := hfold.2
    simp only [Finset.sum_const_zero, zero_add] at h2
    exact h2

/-- Claim C6 witness: the end-to-end scenario of the spec, a single expert
trajectory states [0, 1, 2], actions [0, 0] on a 3-state chain. -/
theorem sa_visitations_sums_witness :
    (∑ s ∈ Finset.range 3,
      (sa_visitations 3 1 [⟨[0, 1, 2], [0, 0]⟩]).2 s = 1) ∧
    (∑ s ∈ Finset.range 3, ∑ a ∈ Finset.range 1,
      (sa_visitations 3 1 [⟨[0, 1, 2], [0, 0]⟩]).1 s a =
      (([⟨[0, 1, 2], [0, 0]⟩] : List Traj).map
        (fun tr => (tr.actions.length : ℚ))).sum) :=
  sa_visitations_sums 3 1 [⟨[0, 1, 2], [0, 0]⟩] (by decide) (by decide)

/-- np.dot(M.T, v): column i of M dotted with v over the nS states. -/
def matTvec (nS : ℕ) (M : ℕ → ℕ → ℚ) (v : ℕ → ℚ) : ℕ → ℚ :=
  fun i => ∑ s ∈ Finset.range nS, M s i * v s

/-- The identity feature map np.eye(n_states) of the trainer. -/
def feat_map (s i : ℕ) : ℚ := if s = i then 1 else 0

/-- One outer IRL iteration of train (mce_irl.py lines 117-145), given
the stochastic policy produced by the external forward-RL agent for
this iteration: compute the occupancy measure of that policy with the
empirical P0 (no cap, default threshold 1e-6), form the log-likelihood
gradient dl_dtheta = -(mean_feature_count - feat_map^T . d), and take
the descent step theta -= lr * dl_dtheta[:-1], which excludes the last
(absorbing-state) feature dimension. Instantiating the reward function
from theta and training the agent are external calls that do not touch
theta. -/
def trainStep (nS nA : ℕ) (T : Tensor) (γ lr : ℚ) (mfc P0 : ℕ → ℚ)
    (fuel : ℕ) (policy : ℕ → ℕ → ℚ) (θ : ℕ → ℚ) : Option (ℕ → ℚ) :=
  (occupancy_measure nS nA T policy γ P0 none (1/1000000) fuel).map
    (fun d =>
      let dl_dtheta := fun i => -(mfc i - matTvec nS feat_map d i)
      fun i => if i < nS - 1 then θ i - lr * dl_dtheta i else θ i)

/-- The outer iteration loop of train: theta is created once before the
loop and each iteration updates the theta produced by the previous one;
iteration k uses the policy the agent returned at iteration k. -/
def trainLoop (nS nA : ℕ) (T : Tensor) (γ lr : ℚ) (mfc P0 : ℕ → ℚ)
    (fuel : ℕ) (policies : ℕ → ℕ → ℕ → ℚ) (θ0 : ℕ → ℚ) :
    ℕ → Option (ℕ → ℚ)
  | 0 => some θ0
  | k + 1 => (trainLoop nS nA T γ lr mfc P0 fuel policies θ0 k).bind
      (trainStep nS nA T γ lr mfc P0 fuel (policies k))

/-- train of mce_irl.py: visitation statistics are computed once,
mean_s_visit_count is the action-row sum of the visit counts divided by
the trajectory count, mean_feature_count = feat_map^T .
mean_s_visit_count, and then no_irl_iterations outer iterations run
from the externally produced initial parameters theta0. -/
def train (nS nA : ℕ) (T : Tensor) (γ lr : ℚ) (trajs : List Traj)
    (fuel : ℕ) (policies : ℕ → ℕ → ℕ → ℚ) (θ0 : ℕ → ℚ)
    (no_irl_iterations : ℕ) : Option (ℕ → ℚ) :=
  let sa_visit_count := (sa_visitations nS nA trajs).1
  let P0 := (sa_visitations nS nA trajs).2
  let mean_s_visit_count := fun s =>
    (∑ a ∈ Finset.range nA, sa_visit_count s a) / (trajs.length : ℚ)
  let mean_feature_count := matTvec nS feat_map mean_s_visit_count
  trainLoop nS nA T γ lr mean_feature_count P0 fuel policies θ0
    no_irl_iterations

/-- Claim C5: in every outer iteration of the training loop, the update uses
the gradient grad = -(mean_feature_count - feat_map^T . d) with d the
occupancy measure of the policy of that iteration, and sets
theta := theta - lr * grad on every component except the last
(absorbing-state) feature dimension, which is excluded; theta is
threaded from each iteration to the next, created once and never
reset. -/
theorem train_gradient_step (nS nA : ℕ) (T : Tensor) (γ lr : ℚ)
    (mfc P0 : ℕ → ℚ) (fuel : ℕ) (policies : ℕ → ℕ → ℕ → ℚ)
    (θ0 : ℕ → ℚ) (k : ℕ) (θk d : ℕ → ℚ)
    (hk : trainLoop nS nA T γ lr mfc P0 fuel policies θ0 k = some θk)
    (hocc : occupancy_measure nS nA T (policies k) γ P0 none (1/1000000)
      fuel = some d) :
    trainLoop nS nA T γ lr mfc P0 fuel policies θ0 (k + 1) =
      some (fun i => if i < nS - 1
        then θk i - lr * (-(mfc i - matTvec nS feat_map d i))
        else θk i) := by
  show (trainLoop nS nA T γ lr mfc P0 fuel policies θ0 k).bind
    (trainStep nS nA T γ lr mfc P0 fuel (policies k)) = _
  rw [hk]
  show trainStep nS nA T γ lr mfc P0 fuel (policies k) θk = _
  unfold trainStep
  rw [hocc]
  rfl

/-- Claim C5 witness: one iteration on a one-state instance whose occupancy
computation converges in a single sweep (P0 = 0), with lr = 2 and
mean feature count 3. -/
theorem train_gradient_step_witness :
    trainLoop 1 1 (fun _ _ _ => 1) (1/2) 2 (fun _ => 3) (fun _ => 0) 1
      (fun _ _ _ => 1) (fun _ => 5) 1 =
    some (fun i => if i < 1 - 1
      then (fun _ => (5 : ℚ)) i - 2 * (-((fun _ => (3 : ℚ)) i -
        matTvec 1 feat_map (sweep 1 1 (fun _ _ _ => 1) (fun _ _ => 1)
          (1/2) (fun _ => 0) (fun _ => 0)) i))
      else (fun _ => (5 : ℚ)) i) := by
  have hsz : sweep 1 1 (fun _ _ _ => 1) (fun _ _ => 1) (1/2) (fun _ => 0)
      (fun _ => 0) = fun _ => (0 : ℚ) := by
    funext j
    rw [sweep_apply]
    by_cases hj : j < 1 <;> simp [hj]
  refine train_gradient_step 1 1 (fun _ _ _ => 1) (1/2) 2 (fun _ => 3)
    (fun _ => 0) 1 (fun _ _ _ => 1) (fun _ => 5) 0 (fun _ => 5)
    (sweep 1 1 (fun _ _ _ => 1) (fun _ _ => 1) (1/2) (fun _ => 0)
      (fun _ => 0)) rfl ?_
  show (if maxAbsDiff 1 (fun _ => 0) (sweep 1 1 (fun _ _ _ => 1)
      (fun _ _ => 1) (1/2) (fun _ => 0) (fun _ => 0)) ≤ 1/1000000
    then some (sweep 1 1 (fun _ _ _ => 1) (fun _ _ => 1) (1/2)
      (fun _ => 0) (fun _ => 0))
    else occLoop 1 1 (fun _ _ _ => 1) (fun _ _ => 1) (1/2) (1/1000000)
      (fun _ => 0) none 0 (sweep 1 1 (fun _ _ _ => 1) (fun _ _ => 1)
        (1/2) (fun _ => 0) (fun _ => 0)) 0) = _
  rw [hsz]
  rw [if_pos (by norm_num [maxAbsDiff, show List.range 1 = [0] from rfl])]

end MceIrl
